import Mathlib

/-!
# Verification of the graph-code-viewer extraction/resolution engine

Shallow embedding of the repository's core (metadata.py, scraper.py,
main.py, filters.py) and proofs about it.

Python dictionaries are modelled as association lists with unique keys
(uniqueness holds by construction, since insertion replaces an existing
binding in place and otherwise appends, exactly like a Python `dict`).
Python `set` values are modelled as `Finset String`: like a Python set
they are membership-determined and carry no canonical element order.
-/

namespace GraphViewer

/-! ## Python dict model (string-keyed association lists) -/

/-- `d[k]` lookup: the first binding of key `k`, if any.  By construction
all dictionaries here have at most one binding per key. -/
def dlookup {α : Type} : List (String × α) → String → Option α
  | [], _ => none
  | p :: ps, k => if p.1 = k then some p.2 else dlookup ps k

/-- `k in d`, as a Bool (Python membership test against dict keys). -/
def dmem {α : Type} (d : List (String × α)) (k : String) : Bool :=
  (dlookup d k).isSome

/-- `d[k] = v`: replace the first binding of `k` in place, or append a new
binding — the update semantics of a Python dict. -/
def dinsert {α : Type} : List (String × α) → String → α → List (String × α)
  | [], k, v => [(k, v)]
  | p :: ps, k, v => if p.1 = k then (k, v) :: ps else p :: dinsert ps k v

/-- In-place mutation `f` of the value bound to `k` (models mutating the
object stored at `d[k]`; a no-op when `k` is absent — every use below is
guarded by, or otherwise guarantees, the presence of `k`). -/
def dmodify {α : Type} : List (String × α) → String → (α → α) → List (String × α)
  | [], _, _ => []
  | p :: ps, k, f => if p.1 = k then (p.1, f p.2) :: ps else p :: dmodify ps k f

theorem dlookup_dinsert {α : Type} (d : List (String × α)) (k k' : String) (v : α) :
    dlookup (dinsert d k v) k' = if k' = k then some v else dlookup d k' := by
  induction d with
  | nil =>
    simp only [dinsert, dlookup]
    by_cases h : k' = k
    · rw [if_pos h.symm, if_pos h]
    · rw [if_neg (fun hh => h hh.symm), if_neg h]
  | cons p ps ih =>
    simp only [dinsert]
    by_cases hpk : p.1 = k
    · rw [if_pos hpk]
      simp only [dlookup]
      by_cases h : k' = k
      · rw [if_pos h.symm, if_pos h]
      · rw [if_neg (fun hh => h hh.symm), if_neg h,
          if_neg (fun hh : p.1 = k' => h (hh.symm.trans hpk))]
    · rw [if_neg hpk]
      simp only [dlookup]
      by_cases hpk' : p.1 = k'
      · have hk'k : ¬ k' = k := fun hh => hpk (hpk'.trans hh)
        rw [if_pos hpk', if_neg hk'k, if_pos hpk']
      · rw [if_neg hpk', ih, if_neg hpk']

theorem dlookup_dmodify {α : Type} (d : List (String × α)) (k k' : String) (f : α → α) :
    dlookup (dmodify d k f) k' =
      if k' = k then (dlookup d k).map f else dlookup d k' := by
  induction d with
  | nil =>
    simp only [dmodify, dlookup, Option.map_none']
    rw [ite_self]
  | cons p ps ih =>
    simp only [dmodify]
    by_cases hpk : p.1 = k
    · rw [if_pos hpk]
      simp only [dlookup]
      by_cases h : k' = k
      · rw [if_pos (hpk.trans h.symm), if_pos h, if_pos hpk, Option.map_some']
      · rw [if_neg (fun hh : p.1 = k' => h (hh.symm.trans hpk)), if_neg h,
          if_neg (fun hh : p.1 = k' => h (hh.symm.trans hpk))]
    · rw [if_neg hpk]
      simp only [dlookup]
      by_cases hpk' : p.1 = k'
      · have hk'k : ¬ k' = k := fun hh => hpk (hpk'.trans hh)
        rw [if_pos hpk', if_neg hk'k, if_pos hpk']
      · rw [if_neg hpk', ih, if_neg hpk, if_neg hpk']

theorem dmem_dmodify {α : Type} (d : List (String × α)) (k k' : String) (f : α → α) :
    dmem (dmodify d k f) k' = dmem d k' := by
  by_cases h : k' = k <;> simp [dmem, dlookup_dmodify, h, Option.isSome_map]

theorem dmem_dinsert {α : Type} (d : List (String × α)) (k k' : String) (v : α) :
    dmem (dinsert d k v) k' = (k' = k ∨ dmem d k' = true) := by
  by_cases h : k' = k <;> simp [dmem, dlookup_dinsert, h]

theorem dmem_dinsert_of_mem {α : Type} {d : List (String × α)} {k' : String}
    (k : String) (v : α) (h : dmem d k' = true) : dmem (dinsert d k v) k' = true := by
  rw [dmem_dinsert]; exact Or.inr h

/-! ## Data model (metadata.py dataclasses) -/

/-- One entry of `FunctionMetadata.parameters`: the dict
`{'name': ..., 'type': ...}` built in `extract_function_metadata`. -/
structure Param where
  name : String
  type : String
deriving DecidableEq, Repr

/-- `metadata.FunctionMetadata` (a frozen record once produced). -/
structure FunctionMetadata where
  name : String
  folder_path : String
  file_path : String
  script_type : String
  docstring : Option String
  parameters : List Param
  returns : String
  line_number : Nat
  called_functions : List String
  used_classes : List String
deriving DecidableEq, Repr

/-- `metadata.ClassMetadata`. -/
structure ClassMetadata where
  name : String
  folder_path : String
  file_path : String
  script_type : String
  docstring : Option String
  methods : List FunctionMetadata
deriving DecidableEq, Repr

/-- Node key `file_path + ":" + name` for a function/method. -/
def fmId (f : FunctionMetadata) : String := f.file_path ++ ":" ++ f.name

/-- Node key `file_path + ":" + name` for a class. -/
def cmId (c : ClassMetadata) : String := c.file_path ++ ":" ++ c.name

/-! ## Python AST model and the Syntax Extractor (metadata.py)

Just enough of the Python `ast` node zoo to express what the extractor
reads: module/function/class structure, call expressions with `Name` or
`Attribute` callees, bare name references, string constants (docstrings
and string annotations), and subscripted / list / dict annotation forms.
`stmt` stands for any other statement or expression node, carrying its
child nodes. -/

inductive Ast where
  | module (body : List Ast)
  | functionDef (nm : String) (args : List (String × Option Ast))
      (returns : Option Ast) (lineno : Nat) (body : List Ast)
  | classDef (nm : String) (body : List Ast)
  | call (func : Ast) (args : List Ast)
  | attrRef (attr : String) (value : Ast)
  | nameRef (id : String)
  | constStr (s : String)
  | subscript (value : Ast) (slice : Ast)
  | listExpr
  | dictExpr
  | exprStmt (value : Ast)
  | stmt (children : List Ast)

/-- `ast.iter_child_nodes`: the direct child AST nodes, in field order
(for a `FunctionDef`: the argument annotations, then the body, then the
return annotation). -/
def astChildren : Ast → List Ast
  | .module body => body
  | .functionDef _ args ret _ body => args.filterMap Prod.snd ++ body ++ ret.toList
  | .classDef _ body => body
  | .call f args => f :: args
  | .attrRef _ v => [v]
  | .nameRef _ => []
  | .constStr _ => []
  | .subscript v s => [v, s]
  | .listExpr => []
  | .dictExpr => []
  | .exprStmt v => [v]
  | .stmt cs => cs

theorem list_map_sizeOf_sum_lt (l : List Ast) : (l.map sizeOf).sum < sizeOf l := by
  induction l with
  | nil => simp
  | cons a l ih => simp only [List.map_cons, List.sum_cons, List.cons.sizeOf_spec]; omega

theorem filterMap_snd_sizeOf_sum_lt (args : List (String × Option Ast)) :
    ((args.filterMap Prod.snd).map sizeOf).sum < sizeOf args := by
  induction args with
  | nil => simp [List.filterMap]
  | cons a l ih =>
    obtain ⟨s, o⟩ := a
    cases o with
    | none =>
      simp only [List.filterMap_cons, List.cons.sizeOf_spec, Prod.mk.sizeOf_spec]
      omega
    | some x =>
      simp only [List.filterMap_cons, List.cons.sizeOf_spec, Prod.mk.sizeOf_spec,
        Option.some.sizeOf_spec, List.map_cons, List.sum_cons]
      omega

theorem option_toList_sizeOf_sum_le (o : Option Ast) :
    (o.toList.map sizeOf).sum ≤ sizeOf o := by
  cases o <;> simp [Option.toList]

/-- The direct children of a node are strictly smaller in total size:
the termination measure for breadth-first traversal. -/
theorem astChildren_sizeOf_sum_lt (a : Ast) :
    ((astChildren a).map sizeOf).sum < sizeOf a := by
  cases a with
  | module body =>
    have h := list_map_sizeOf_sum_lt body
    simp only [astChildren, Ast.module.sizeOf_spec]; omega
  | functionDef nm args ret lineno body =>
    have h1 := filterMap_snd_sizeOf_sum_lt args
    have h2 := list_map_sizeOf_sum_lt body
    have h3 := option_toList_sizeOf_sum_le ret
    simp only [astChildren, Ast.functionDef.sizeOf_spec, List.map_append,
      List.sum_append]
    omega
  | classDef nm body =>
    have h := list_map_sizeOf_sum_lt body
    simp only [astChildren, Ast.classDef.sizeOf_spec]; omega
  | call f args =>
    have h := list_map_sizeOf_sum_lt args
    simp only [astChildren, Ast.call.sizeOf_spec, List.map_cons, List.sum_cons]
    omega
  | attrRef attr v =>
    simp only [astChildren, Ast.attrRef.sizeOf_spec, List.map_cons,
      List.sum_cons, List.map_nil, List.sum_nil]
    omega
  | nameRef id => simp [astChildren]
  | constStr s => simp [astChildren]
  | subscript v s =>
    simp only [astChildren, Ast.subscript.sizeOf_spec, List.map_cons,
      List.sum_cons, List.map_nil, List.sum_nil]
    omega
  | listExpr => simp [astChildren]
  | dictExpr => simp [astChildren]
  | exprStmt v =>
    simp only [astChildren, Ast.exprStmt.sizeOf_spec, List.map_cons,
      List.sum_cons, List.map_nil, List.sum_nil]
    omega
  | stmt cs =>
    have h := list_map_sizeOf_sum_lt cs
    simp only [astChildren, Ast.stmt.sizeOf_spec]; omega

theorem sizeOf_lt_of_mem_astChildren {a c : Ast} (h : c ∈ astChildren a) :
    sizeOf c < sizeOf a := by
  have h1 : sizeOf c ≤ ((astChildren a).map sizeOf).sum :=
    List.single_le_sum (fun x _ => Nat.zero_le x) _ (List.mem_map_of_mem _ h)
  exact lt_of_le_of_lt h1 (astChildren_sizeOf_sum_lt a)

/-- `ast.walk`: breadth-first enumeration of a node and all of its
descendants, realized exactly as the stdlib's queue loop (pop the head,
yield it, enqueue its children). -/
def walk : List Ast → List Ast
  | [] => []
  | a :: rest => a :: walk (rest ++ astChildren a)
termination_by l => (l.map sizeOf).sum
decreasing_by
  simp only [List.map_append, List.sum_append, List.map_cons, List.sum_cons]
  have := astChildren_sizeOf_sum_lt a
  omega

/-- An `ast.NodeVisitor` whose per-node action is `tag`, run from node
`a`: `tag` fires on `a`, then the visit recurses into every child
(`generic_visit`), collecting in preorder. -/
def astCollect (tag : Ast → List String) (a : Ast) : List String :=
  tag a ++ ((astChildren a).attach.map (fun c => astCollect tag c.1)).flatten
termination_by sizeOf a
decreasing_by exact sizeOf_lt_of_mem_astChildren c.2

/-- Per-node action of `FunctionCallVisitor.visit_Call`: the callee name
of a call — the identifier of a `Name` callee, the trailing attribute of
an `Attribute` callee. -/
def callTag : Ast → List String
  | .call (.nameRef id) _ => [id]
  | .call (.attrRef attr _) _ => [attr]
  | _ => []

/-- The guard `node.id and node.id[0].isupper()`: a nonempty identifier
whose first character is an uppercase letter. -/
def startsUpper (id : String) : Bool :=
  match id.data with
  | [] => false
  | c :: _ => c.isUpper

/-- Per-node action of `ClassUsageVisitor`: capitalized `Name` callees
(`visit_Call`) and capitalized bare names (`visit_Name`).  A capitalized
`Name` callee is collected twice — once by each handler, since
`generic_visit` descends into the callee — and deduplicated later,
exactly as in the source. -/
def usageTag : Ast → List String
  | .call (.nameRef id) _ => if startsUpper id then [id] else []
  | .nameRef id => if startsUpper id then [id] else []
  | _ => []

/-- `MetadataExtractor.extract_function_calls`. -/
def extract_function_calls (node : Ast) : List String := astCollect callTag node

/-- `MetadataExtractor.extract_class_usages`; `list(set(...))` is modelled
as first-occurrence deduplication (a Python set fixes no element order;
only membership in this list is ever relied on downstream). -/
def extract_class_usages (node : Ast) : List String :=
  (astCollect usageTag node).eraseDups

/-- `extract_type_hint` on a present annotation node, dispatching in the
source's isinstance order (Name, Subscript, Constant, List, Dict, else
"Any"); string constants are the one modelled `Constant` form, for which
`str(annotation.value)` is the string itself. -/
def typeHintOf : Ast → String
  | .nameRef id => id
  | .subscript v s => typeHintOf v ++ "[" ++ typeHintOf s ++ "]"
  | .constStr s => s
  | .listExpr => "List"
  | .dictExpr => "Dict"
  | _ => "Any"

/-- `MetadataExtractor.extract_type_hint` (None ↦ "Any"). -/
def extract_type_hint : Option Ast → String
  | none => "Any"
  | some a => typeHintOf a

/-- `ast.get_docstring` on a declaration body: the string constant opening
the body, if any (the stdlib's indentation cleaning is not modelled — the
string is returned as stored). -/
def get_docstring : List Ast → Option String
  | .exprStmt (.constStr s) :: _ => some s
  | _ => none

/-- Split a character list on `'/'` (helper for the `os.path` models;
always returns at least one, possibly empty, segment). -/
def splitSlash : List Char → List (List Char)
  | [] => [[]]
  | c :: rest =>
    match splitSlash rest with
    | [] => [[]]
    | g :: gs => if c = '/' then [] :: g :: gs else (c :: g) :: gs

/-- Re-join segments with `'/'` (helper for the `os.path` models). -/
def joinSlash : List (List Char) → List Char
  | [] => []
  | [g] => g
  | g :: gs => g ++ '/' :: joinSlash gs

/-- `os.path.splitext(path)[1]` for POSIX paths: the extension starts at
the last dot of the basename, provided that dot is not among the
basename's leading dots. -/
def splitextExt (path : String) : String :=
  let cs := (splitSlash path.data).getLastD []
  let lead := (cs.takeWhile (· = '.')).length
  match ((cs.enum.filter (fun p => p.2 = '.')).map Prod.fst).getLast? with
  | some i => if lead ≤ i then String.mk (cs.drop i) else ""
  | none => ""

/-- `os.path.dirname` for relative POSIX paths: everything before the last
separator, empty when there is none. -/
def dirname (path : String) : String :=
  let parts := splitSlash path.data
  if parts.length ≤ 1 then "" else String.mk (joinSlash parts.dropLast)

/-- `MetadataExtractor.extract_function_metadata`, with
`self.current_file` / `self.current_folder` passed explicitly. -/
def extract_function_metadata (file folder : String) (nm : String)
    (args : List (String × Option Ast)) (ret : Option Ast) (lineno : Nat)
    (body : List Ast) : FunctionMetadata :=
  let node := Ast.functionDef nm args ret lineno body
  { name := nm
    folder_path := folder
    file_path := file
    script_type := splitextExt file
    docstring := some ((get_docstring body).getD "")
    parameters := args.map fun a => ⟨a.1, extract_type_hint a.2⟩
    returns := extract_type_hint ret
    line_number := lineno
    called_functions := extract_function_calls node
    used_classes := extract_class_usages node }

/-- `isinstance(n, ast.FunctionDef)` guard plus metadata extraction. -/
def fmOfNode (file folder : String) : Ast → Option FunctionMetadata
  | .functionDef nm args ret lineno body =>
      some (extract_function_metadata file folder nm args ret lineno body)
  | _ => none

/-- `MetadataExtractor.extract_class_metadata`: metadata of the class,
with methods extracted from the `FunctionDef`s of the class's direct
body. -/
def extract_class_metadata (file folder : String) (nm : String)
    (body : List Ast) : ClassMetadata :=
  { name := nm
    folder_path := folder
    file_path := file
    script_type := splitextExt file
    docstring := some ((get_docstring body).getD "")
    methods := body.filterMap (fmOfNode file folder) }

/-- `isinstance(n, ast.ClassDef)` guard plus class metadata extraction. -/
def cmOfNode (file folder : String) : Ast → Option ClassMetadata
  | .classDef nm body => some (extract_class_metadata file folder nm body)
  | _ => none

/-- `MetadataExtractor.process_file` on an already-parsed tree: walk every
node of the tree, collecting function metadata from each `FunctionDef`
and class metadata from each `ClassDef` encountered. -/
def process_file_ast (file : String) (tree : Ast) :
    List FunctionMetadata × List ClassMetadata :=
  let folder := dirname file
  let nodes := walk [tree]
  (nodes.filterMap (fmOfNode file folder), nodes.filterMap (cmOfNode file folder))

/-! ## Relationship Resolver (scraper.py, extract_relationships)

A graph node's record is the Python dict
`{'contains': …?, 'calls': …, 'called_by': …, 'uses': …, 'used_by': …}`;
class records carry a `'contains'` key, function/method records do not,
which the `contains : Option _` field mirrors.  Accessing the missing
`'contains'` key raises `KeyError` in the source; the initialization
pass is therefore `Option`-valued, with `none` standing for that raised
exception (reachable only when a method shares its own class's node key).
During the edge passes the source only mutates records whose keys were
created by the initialization passes, so `dmodify`'s absent-key no-op is
never exercised there. -/

structure RelEntry where
  contains : Option (Finset String)
  calls : Finset String
  called_by : Finset String
  uses : Finset String
  used_by : Finset String
deriving DecidableEq

/-- The record `{'contains': set(), 'calls': set(), 'called_by': set(),
'uses': set(), 'used_by': set()}` created for a class node. -/
def emptyClassEntry : RelEntry := ⟨some ∅, ∅, ∅, ∅, ∅⟩

/-- The record `{'calls': set(), 'called_by': set(), 'uses': set(),
'used_by': set()}` created for a function or method node. -/
def emptyFuncEntry : RelEntry := ⟨none, ∅, ∅, ∅, ∅⟩

/-- The relationship graph: node key ↦ relation record. -/
abbrev Graph := List (String × RelEntry)

/-- The auxiliary `class_name_map`: class name ↦ list of node keys of all
classes bearing that name, built in appearance order. -/
def class_name_map (classes : List ClassMetadata) : List (String × List String) :=
  classes.foldl
    (fun m cls =>
      match dlookup m cls.name with
      | none => dinsert m cls.name [cmId cls]
      | some ids => dinsert m cls.name (ids ++ [cmId cls]))
    []

/-- One method of the class-initialization pass:
`relationships[cls_id]['contains'].add(method_id)` — a `KeyError` (`none`)
when the record at `cls_id` has no `'contains'` key — followed by
`relationships[method_id] = {...}`. -/
def addMethodInit (g : Graph) (clsId : String) (m : FunctionMetadata) :
    Option Graph :=
  let mid := fmId m
  match dlookup g clsId with
  | none => none
  | some r =>
    match r.contains with
    | none => none
    | some s =>
      let g := dinsert g clsId { r with contains := some (insert mid s) }
      some (dinsert g mid emptyFuncEntry)

/-- One class of the initialization pass: create the class record, then
wire and create each method. -/
def procClass (g : Graph) (cls : ClassMetadata) : Option Graph :=
  cls.methods.foldlM (fun g m => addMethodInit g (cmId cls) m)
    (dinsert g (cmId cls) emptyClassEntry)

/-- Initialization pass over the classes. -/
def initClassPass (g : Graph) (classes : List ClassMetadata) : Option Graph :=
  classes.foldlM procClass g

/-- Initialization of standalone-function nodes: create a fresh record
unless the key already exists. -/
def initFuncPass (g : Graph) (functions : List FunctionMetadata) : Graph :=
  functions.foldl
    (fun g f => if dmem g (fmId f) then g else dinsert g (fmId f) emptyFuncEntry)
    g

/-- `relationships[src]['calls'].add(tgt)` followed by
`relationships[tgt]['called_by'].add(src)`. -/
def addCallEdge (g : Graph) (src tgt : String) : Graph :=
  dmodify (dmodify g src fun r => { r with calls := insert tgt r.calls })
    tgt fun r => { r with called_by := insert src r.called_by }

/-- `relationships[src]['uses'].add(tgt)` followed by
`relationships[tgt]['used_by'].add(src)`. -/
def addUseEdge (g : Graph) (src tgt : String) : Graph :=
  dmodify (dmodify g src fun r => { r with uses := insert tgt r.uses })
    tgt fun r => { r with used_by := insert src r.used_by }

/-- The `called_functions` loop of the edge pass: same-file resolution
only — add a mirrored `calls` edge when `file_path + ":" + name` is an
existing node key, else do nothing. -/
def procCalls (g : Graph) (srcId file : String) (names : List String) : Graph :=
  names.foldl
    (fun g n =>
      let tgt := file ++ ":" ++ n
      if dmem g tgt then addCallEdge g srcId tgt else g)
    g

/-- The `used_classes` loop of the edge pass: same-file resolution first;
otherwise fan out to every node key listed for this name in
`class_name_map`; otherwise drop the reference. -/
def procUses (cmap : List (String × List String)) (g : Graph)
    (srcId file : String) (names : List String) : Graph :=
  names.foldl
    (fun g n =>
      let tgt := file ++ ":" ++ n
      if dmem g tgt then addUseEdge g srcId tgt
      else
        match dlookup cmap n with
        | some ids => ids.foldl (fun g cid => addUseEdge g srcId cid) g
        | none => g)
    g

/-- The edge pass for one declaration (standalone function or method):
its `called_functions`, then its `used_classes`. -/
def procFuncEdges (cmap : List (String × List String)) (g : Graph)
    (f : FunctionMetadata) : Graph :=
  procUses cmap (procCalls g (fmId f) f.file_path f.called_functions)
    (fmId f) f.file_path f.used_classes

/-- `RepositoryScraper.extract_relationships`: build `class_name_map`,
create class/method nodes with `contains` wiring, create standalone
function nodes, then resolve call and usage edges for every standalone
function and every method.  `none` models the `KeyError` raised when a
method's node key collides with its own class's key. -/
def extract_relationships (functions : List FunctionMetadata)
    (classes : List ClassMetadata) : Option Graph :=
  let cmap := class_name_map classes
  match initClassPass [] classes with
  | none => none
  | some g =>
    let g := initFuncPass g functions
    let g := functions.foldl (procFuncEdges cmap) g
    some (classes.foldl (fun g cls => cls.methods.foldl (procFuncEdges cmap) g) g)

/-! ## File scan pipeline (scraper.py, process_file / scan_repository) -/

/-- The file-info dict `{'path': ..., 'type': ..., 'folder': ...}`. -/
structure FileInfo where
  path : String
  type : String
  folder : String
deriving DecidableEq, Repr

/-- What happens when a file on disk is opened and parsed: unreadable
(`open`/`read` raises, e.g. `OSError` or a decode error), readable but
syntactically invalid (`ast.parse` raises `SyntaxError`), or parsed to a
tree. -/
inductive FileOutcome where
  | unreadable
  | unparseable
  | parsed (tree : Ast)

/-- `MetadataExtractor.process_file`: a read failure propagates as an
exception (`error`); a `SyntaxError` is caught inside and yields two
empty lists; otherwise the parsed tree is walked. -/
def metaProcessFile (path : String) (o : FileOutcome) :
    Except Unit (List FunctionMetadata × List ClassMetadata) :=
  match o with
  | .unreadable => .error ()
  | .unparseable => .ok ([], [])
  | .parsed t => .ok (process_file_ast path t)

/-- `RepositoryScraper.process_file`: on success also build the file-info
dict; any exception is caught and downgraded to `([], [], {})` — the
empty dict is modelled as `none`. -/
def scraperProcessFile (path : String) (o : FileOutcome) :
    List FunctionMetadata × List ClassMetadata × Option FileInfo :=
  match metaProcessFile path o with
  | .error _ => ([], [], none)
  | .ok (fs, cs) => (fs, cs, some ⟨path, splitextExt path, dirname path⟩)

/-- One step of the result merge: `if info: file_info[info['path']] = info`
(an empty info dict is falsy and skipped). -/
def fileInfoStep (fi : List (String × FileInfo))
    (r : List FunctionMetadata × List ClassMetadata × Option FileInfo) :
    List (String × FileInfo) :=
  match r.2.2 with
  | some info => dinsert fi info.path info
  | none => fi

/-- `RepositoryScraper.scan_repository` from the per-file outcomes onward
(the walker that produces the candidate list, and the worker pool — which
returns results in input order — are outside the model): process every
file, merge results in order skipping falsy (empty) file-info dicts, then
resolve relationships. -/
def scan_repository (files : List (String × FileOutcome)) :
    List FunctionMetadata × List ClassMetadata × List (String × FileInfo) ×
      Option Graph :=
  let results := files.map (fun pf => scraperProcessFile pf.1 pf.2)
  let file_info := results.foldl fileInfoStep []
  let functions := (results.map (·.1)).flatten
  let classes := (results.map (·.2.1)).flatten
  (functions, classes, file_info, extract_relationships functions classes)

/-! ## Snapshot codec (main.py, save_cache / load_cache)

`save_cache`'s dict construction is the encoder; the JSON layer itself
(`json.dump`/`json.load`) is external and modelled structurally: a parsed
snapshot is a `RawCache` whose `Option` fields record which keys are
present, so that a missing key reads as `none` — the `KeyError` that
`load_cache` catches.  The file states a loader can meet are modelled by
`SnapshotFile`. -/

/-- A function record as found in a parsed snapshot; each field `none`
when the corresponding key is absent. -/
structure RawFunc where
  name : Option String
  folder_path : Option String
  file_path : Option String
  script_type : Option String
  docstring : Option (Option String)
  parameters : Option (List Param)
  returns : Option String
  line_number : Option Nat
  called_functions : Option (List String)
  used_classes : Option (List String)
deriving DecidableEq, Repr

/-- A class record as found in a parsed snapshot. -/
structure RawClass where
  name : Option String
  folder_path : Option String
  file_path : Option String
  script_type : Option String
  docstring : Option (Option String)
  methods : Option (List RawFunc)
deriving DecidableEq, Repr

/-- A parsed snapshot's top level: the four keys `load_cache` reads, each
possibly absent. -/
structure RawCache where
  functions : Option (List RawFunc)
  classes : Option (List RawClass)
  file_info : Option (List (String × FileInfo))
  relationships : Option (List (String × List (String × List String)))
deriving DecidableEq, Repr

/-- The states of the snapshot file `load_cache` can encounter: absent,
present but zero-sized, present but not valid JSON (`json.load` raises
`JSONDecodeError`), or parsed to a `RawCache`. -/
inductive SnapshotFile where
  | absent
  | empty
  | invalidJson
  | parsed (cache : RawCache)

/-- The `FunctionMetadata(...)` reconstruction in `load_cache`: every
field is read by key, a missing key raising the `KeyError` the caller
catches (`none`). -/
def decodeFunc (f : RawFunc) : Option FunctionMetadata := do
  let name ← f.name
  let folder_path ← f.folder_path
  let file_path ← f.file_path
  let script_type ← f.script_type
  let docstring ← f.docstring
  let parameters ← f.parameters
  let returns ← f.returns
  let line_number ← f.line_number
  let called_functions ← f.called_functions
  let used_classes ← f.used_classes
  pure { name, folder_path, file_path, script_type, docstring, parameters,
         returns, line_number, called_functions, used_classes }

/-- The function-list comprehension of `load_cache`: reconstruct every
record in order, any failure propagating. -/
def decodeFuncs : List RawFunc → Option (List FunctionMetadata)
  | [] => some []
  | f :: fs => do
    let x ← decodeFunc f
    let xs ← decodeFuncs fs
    pure (x :: xs)

/-- The `ClassMetadata(...)` reconstruction in `load_cache`. -/
def decodeClass (c : RawClass) : Option ClassMetadata := do
  let name ← c.name
  let folder_path ← c.folder_path
  let file_path ← c.file_path
  let script_type ← c.script_type
  let docstring ← c.docstring
  let rawMethods ← c.methods
  let methods ← decodeFuncs rawMethods
  pure { name, folder_path, file_path, script_type, docstring, methods }

/-- The class-list comprehension of `load_cache`. -/
def decodeClasses : List RawClass → Option (List ClassMetadata)
  | [] => some []
  | c :: cs => do
    let x ← decodeClass c
    let xs ← decodeClasses cs
    pure (x :: xs)

/-- `{rel_type: set(rel_list) for ...}` over every node: relation lists
back to sets, keys untouched. -/
def decodeRels (rels : List (String × List (String × List String))) :
    List (String × List (String × Finset String)) :=
  rels.map (fun p => (p.1, p.2.map (fun q => (q.1, q.2.toFinset))))

/-- `load_cache`: `None` quadruple (here `none`) when the file is absent
or empty, when JSON parsing fails, or when any required key is missing;
otherwise the reconstructed collections. -/
def load_cache (s : SnapshotFile) :
    Option (List FunctionMetadata × List ClassMetadata ×
      List (String × FileInfo) × List (String × List (String × Finset String))) :=
  match s with
  | .absent => none
  | .empty => none
  | .invalidJson => none
  | .parsed cache => do
    let rawFns ← cache.functions
    let functions ← decodeFuncs rawFns
    let rawCls ← cache.classes
    let classes ← decodeClasses rawCls
    let fi ← cache.file_info
    let rels ← cache.relationships
    pure (functions, classes, fi, decodeRels rels)

/-- The function dict written by `save_cache` (all keys present). -/
def encodeFunc (f : FunctionMetadata) : RawFunc :=
  ⟨some f.name, some f.folder_path, some f.file_path, some f.script_type,
   some f.docstring, some f.parameters, some f.returns, some f.line_number,
   some f.called_functions, some f.used_classes⟩

/-- The class dict written by `save_cache`. -/
def encodeClass (c : ClassMetadata) : RawClass :=
  ⟨some c.name, some c.folder_path, some c.file_path, some c.script_type,
   some c.docstring, some (c.methods.map encodeFunc)⟩

/-- A node record viewed as the key/set dict it is in the source: the
`'contains'` binding exactly when the record has one, then the four edge
sets, in construction order. -/
def relEntryToDict (r : RelEntry) : List (String × Finset String) :=
  (match r.contains with
   | some s => [("contains", s)]
   | none => []) ++
  [("calls", r.calls), ("called_by", r.called_by),
   ("uses", r.uses), ("used_by", r.used_by)]

/-- `list(rel_set)`: a Python set flattened to a list in unspecified
order; realized here by sorting, one order a set iteration may take. -/
def setToList (s : Finset String) : List String := s.sort (· ≤ ·)

/-- `{rel_type: list(rel_set) for ...}`: every relation set flattened to
a list for serialization. -/
def encodeRels (g : Graph) : List (String × List (String × List String)) :=
  g.map (fun p => (p.1, (relEntryToDict p.2).map (fun q => (q.1, setToList q.2))))

/-- `save_cache`'s `cache` value — the snapshot record handed to
`json.dump`. -/
def save_cache (functions : List FunctionMetadata) (classes : List ClassMetadata)
    (file_info : List (String × FileInfo)) (relationships : Graph) : RawCache :=
  ⟨some (functions.map encodeFunc), some (classes.map encodeClass),
   some file_info, some (encodeRels relationships)⟩

/-! ## Graph query layer (filters.py) -/

/-- A node-attribute dict as consumed by `GraphFilter`: `v.get('type')`
and `v.get('label', '')` are the only keys it reads, `payload` stands for
the remaining attributes (id, color, metadata, ...), carried unchanged. -/
structure NodeAttrs where
  type : Option String
  label : Option String
  payload : List String
deriving DecidableEq, Repr

/-- `GraphFilter.node_types` — the supported node types. -/
def node_types : List String := ["folder", "file", "function"]

/-- `GraphFilter.filter_by_type(nodes, node_type)` (the spec's
`filter_by_kind`): unknown type is a no-op, otherwise keep the nodes whose
`'type'` attribute matches, attributes unchanged. -/
def filter_by_type (nodes : List (String × NodeAttrs)) (node_type : String) :
    List (String × NodeAttrs) :=
  if node_type ∉ node_types then nodes
  else nodes.filter fun kv =>
    (node_type = "folder" ∧ kv.2.type = some "folder") ∨
    (node_type = "file" ∧ kv.2.type = some "file") ∨
    (node_type = "function" ∧ kv.2.type = some "function")

/-! ## Codec round-trip lemmas -/

theorem decodeFunc_encodeFunc (f : FunctionMetadata) :
    decodeFunc (encodeFunc f) = some f := rfl

theorem decodeFuncs_map_encodeFunc (l : List FunctionMetadata) :
    decodeFuncs (l.map encodeFunc) = some l := by
  induction l with
  | nil => rfl
  | cons a l ih => simp [decodeFuncs, decodeFunc_encodeFunc, ih]

theorem decodeClass_encodeClass (c : ClassMetadata) :
    decodeClass (encodeClass c) = some c := by
  simp [decodeClass, encodeClass, decodeFuncs_map_encodeFunc]

theorem decodeClasses_map_encodeClass (l : List ClassMetadata) :
    decodeClasses (l.map encodeClass) = some l := by
  induction l with
  | nil => rfl
  | cons a l ih => simp [decodeClasses, decodeClass_encodeClass, ih]

theorem decodeRels_encodeRels (g : Graph) :
    decodeRels (encodeRels g) = g.map (fun p => (p.1, relEntryToDict p.2)) := by
  simp only [decodeRels, encodeRels, List.map_map]
  refine List.map_congr_left fun p _ => ?_
  simp only [Function.comp_apply, List.map_map]
  have h : (relEntryToDict p.2).map
      ((fun q => (q.1, q.2.toFinset)) ∘ fun q : String × Finset String =>
        (q.1, setToList q.2)) = (relEntryToDict p.2).map id := by
    refine List.map_congr_left fun q _ => ?_
    simp [setToList, Finset.sort_toFinset]
  rw [h, List.map_id]

/-! ## Claim C3 -/

/-- C3 (confirmed): decoding the encoding of any scan result — its
declarations, classes, file records and relationship graph — reproduces
the same declarations, classes and file records, and the relationship
graph with the same node keys and the same relation sets per node (each
node record read back as the relation-name ↦ set dict it is in the
source; sets compare by membership, so the flattened lists' internal
order is irrelevant). -/
theorem snapshot_roundtrip (functions : List FunctionMetadata)
    (classes : List ClassMetadata) (file_info : List (String × FileInfo))
    (g : Graph) :
    load_cache (.parsed (save_cache functions classes file_info g)) =
      some (functions, classes, file_info,
        g.map (fun p => (p.1, relEntryToDict p.2))) := by
  simp [load_cache, save_cache, decodeFuncs_map_encodeFunc,
    decodeClasses_map_encodeClass, decodeRels_encodeRels]

/-! ## Claim C7 -/

/-- C7 (corrected) counterexample: the claim asserts the decode-failure
result is distinguishable from the absent-file result, but `load_cache`
returns the same `None` quadruple for an unparseable snapshot, for a
snapshot missing every required key, and for an absent file — the
results are equal, not distinguishable. -/
theorem snapshot_failure_indistinguishable :
    load_cache .invalidJson = load_cache .absent ∧
    load_cache (.parsed ⟨none, none, none, none⟩) = load_cache .absent :=
  ⟨rfl, rfl⟩

/-- C7 (amended): decoding a truncated (JSON-unparseable) snapshot or one
missing a required key fails without crashing, yielding the `None`
quadruple — the very result an absent snapshot file yields, the two cases
differing only in a logged message, not in the returned value. -/
theorem snapshot_decode_failure_yields_none (c : RawCache)
    (h : c.functions = none) :
    load_cache .invalidJson = none ∧ load_cache (.parsed c) = none ∧
      load_cache .absent = none := by
  refine ⟨rfl, ?_, rfl⟩
  simp [load_cache, h]

/-- Witness for the C7 amended theorem at a concrete malformed cache. -/
theorem snapshot_decode_failure_yields_none_witness :
    load_cache .invalidJson = none ∧
      load_cache (.parsed ⟨none, some [], some [], some []⟩) = none ∧
      load_cache .absent = none :=
  snapshot_decode_failure_yields_none ⟨none, some [], some [], some []⟩ rfl

/-! ## Claim C1 -/

/-- C1 (corrected) counterexample: applied to a node set holding a folder
node and a class node, the kind filter with kind `"class"` returns its
input unchanged — not exactly the class nodes, as the claim states
(`"class"` is not in the filter's supported `node_types`). -/
theorem filter_by_class_not_class_nodes :
    filter_by_type
        [("folder:x", ⟨some "folder", some "x", []⟩),
         ("a.py:C", ⟨some "class", some "C", []⟩)] "class" ≠
      [("a.py:C", ⟨some "class", some "C", []⟩)] := by
  decide

/-- C1 (amended): the kind filter supports only the kinds folder, file
and function; applied with any other kind tag — `"class"` and `"method"`
included, and in particular every tag outside
{folder, file, function, method, class} — it returns its input (node keys
and attributes) unchanged. -/
theorem filter_by_type_unsupported_noop (nodes : List (String × NodeAttrs))
    (k : String) (h : k ∉ node_types) : filter_by_type nodes k = nodes := by
  simp [filter_by_type, h]

/-- Witness for the C1 amended theorem: kind `"class"` on a concrete node
set is a no-op. -/
theorem filter_by_type_unsupported_noop_witness :
    filter_by_type
        [("folder:x", ⟨some "folder", some "x", []⟩),
         ("a.py:C", ⟨some "class", some "C", []⟩)] "class" =
      [("folder:x", ⟨some "folder", some "x", []⟩),
       ("a.py:C", ⟨some "class", some "C", []⟩)] :=
  filter_by_type_unsupported_noop _ "class" (by decide)

/-! ## Walk lemmas (for C2) -/

theorem mem_walk_of_mem : ∀ (l : List Ast) (a : Ast), a ∈ l → a ∈ walk l
  | a₀ :: rest, a, h => by
    rw [walk]
    rcases List.mem_cons.mp h with rfl | h
    · exact List.mem_cons_self _ _
    · exact List.mem_cons_of_mem _
        (mem_walk_of_mem (rest ++ astChildren a₀) a (List.mem_append_left _ h))
termination_by l => (l.map sizeOf).sum
decreasing_by
  simp only [List.map_append, List.sum_append, List.map_cons, List.sum_cons]
  have := astChildren_sizeOf_sum_lt a₀
  omega

/-- The breadth-first walk is closed under taking children: every child
of a visited node is itself visited. -/
theorem walk_closed_under_children :
    ∀ (l : List Ast) (n : Ast), n ∈ walk l → ∀ c ∈ astChildren n, c ∈ walk l
  | [], n, hn, c, hc => by rw [walk] at hn; exact absurd hn (List.not_mem_nil n)
  | a₀ :: rest, n, hn, c, hc => by
    rw [walk] at hn ⊢
    rcases List.mem_cons.mp hn with rfl | hn
    · exact List.mem_cons_of_mem _
        (mem_walk_of_mem (rest ++ astChildren n) c (List.mem_append_right _ hc))
    · exact List.mem_cons_of_mem _
        (walk_closed_under_children (rest ++ astChildren a₀) n hn c hc)
termination_by l => (l.map sizeOf).sum
decreasing_by
  simp only [List.map_append, List.sum_append, List.map_cons, List.sum_cons]
  have := astChildren_sizeOf_sum_lt a₀
  omega

/-! ## Claim C2 -/

/-- The input file of the C2 instance: a module holding one class `C`
whose body is one method `m`. -/
def c2tree : Ast := .module [.classDef "C" [.functionDef "m" [] none 2 []]]

/-- The metadata the extractor produces for method `m` of `c2tree`. -/
def c2fm : FunctionMetadata :=
  { name := "m", folder_path := "", file_path := "a.py", script_type := ".py",
    docstring := some "", parameters := [], returns := "Any", line_number := 2,
    called_functions := [], used_classes := [] }

/-- The metadata the extractor produces for class `C` of `c2tree`. -/
def c2cm : ClassMetadata :=
  { name := "C", folder_path := "", file_path := "a.py", script_type := ".py",
    docstring := some "", methods := [c2fm] }

unseal walk astCollect in
theorem c2tree_eval : process_file_ast "a.py" c2tree = ([c2fm], [c2cm]) := rfl

/-- C2 (corrected) counterexample: processing a file holding one class
with one method returns that method both inside the class's method
sequence and as a free-standing declaration — the two sequences are not
disjoint.  (`ast.walk` visits nested nodes, so every method's
`FunctionDef` is also collected at top level.) -/
theorem extractor_method_also_standalone_cx :
    ∃ cm ∈ (process_file_ast "a.py" c2tree).2,
      ∃ fm ∈ cm.methods, fm ∈ (process_file_ast "a.py" c2tree).1 := by
  rw [c2tree_eval]
  decide

/-- C2 (amended): far from being disjoint from it, every method of every
returned `ClassDeclaration` also appears in the free-standing
`Declaration` sequence — the walk revisits the method's `FunctionDef`
node, and both visits extract identical metadata.  (The Resolver copes:
its standalone-function initialization pass skips node keys that already
exist.) -/
theorem extractor_method_also_standalone (file : String) (tree : Ast)
    (cm : ClassMetadata) (hc : cm ∈ (process_file_ast file tree).2)
    (fm : FunctionMetadata) (hm : fm ∈ cm.methods) :
    fm ∈ (process_file_ast file tree).1 := by
  simp only [process_file_ast, List.mem_filterMap] at hc ⊢
  obtain ⟨n, hn, hcm⟩ := hc
  cases n with
  | classDef nm body =>
    simp only [cmOfNode, Option.some.injEq] at hcm
    subst hcm
    simp only [extract_class_metadata, List.mem_filterMap] at hm
    obtain ⟨d, hd, hfm⟩ := hm
    exact ⟨d, walk_closed_under_children _ _ hn d hd, hfm⟩
  | module body => simp [cmOfNode] at hcm
  | functionDef nm args ret lineno body => simp [cmOfNode] at hcm
  | call f args => simp [cmOfNode] at hcm
  | attrRef attr v => simp [cmOfNode] at hcm
  | nameRef id => simp [cmOfNode] at hcm
  | constStr s => simp [cmOfNode] at hcm
  | subscript v s => simp [cmOfNode] at hcm
  | listExpr => simp [cmOfNode] at hcm
  | dictExpr => simp [cmOfNode] at hcm
  | exprStmt v => simp [cmOfNode] at hcm
  | stmt cs => simp [cmOfNode] at hcm

/-- Witness for the C2 amended theorem: the method of `c2tree`'s class is
in the free-standing declaration list. -/
theorem extractor_method_also_standalone_witness :
    c2fm ∈ (process_file_ast "a.py" c2tree).1 :=
  extractor_method_also_standalone "a.py" c2tree c2cm
    (by rw [c2tree_eval]; decide) c2fm (by decide)

/-! ## Claim C8 -/

/-- C8 (corrected) counterexample: scanning one unreadable file yields no
FileRecord for it at all — `file_info` has no entry for the path, where
the claim demands one. -/
theorem unreadable_file_has_no_filerecord :
    dlookup (scan_repository [("a.py", FileOutcome.unreadable)]).2.2.1
      "a.py" = none := rfl

theorem fileInfoStep_scraperProcessFile (fi : List (String × FileInfo))
    (q : String) (o : FileOutcome) :
    fileInfoStep fi (scraperProcessFile q o) =
      match o with
      | FileOutcome.unreadable => fi
      | _ => dinsert fi q ⟨q, splitextExt q, dirname q⟩ := by
  cases o <;> rfl

theorem dmem_scan_fileinfo_fold (files : List (String × FileOutcome))
    (fi₀ : List (String × FileInfo)) (p : String) :
    dmem ((files.map (fun pf => scraperProcessFile pf.1 pf.2)).foldl
        fileInfoStep fi₀) p = true ↔
      dmem fi₀ p = true ∨ ∃ o, (p, o) ∈ files ∧ o ≠ FileOutcome.unreadable := by
  induction files generalizing fi₀ with
  | nil => simp
  | cons qf rest ih =>
    obtain ⟨q, o⟩ := qf
    simp only [List.map_cons, List.foldl_cons, ih,
      fileInfoStep_scraperProcessFile]
    constructor
    · rintro (h | ⟨o', ho', hne⟩)
      · cases o with
        | unreadable => exact Or.inl h
        | unparseable =>
          rcases (dmem_dinsert fi₀ q p _).symm ▸ h with h | h
          · exact Or.inr ⟨.unparseable, by simp [h], by simp⟩
          · exact Or.inl h
        | parsed t =>
          rcases (dmem_dinsert fi₀ q p _).symm ▸ h with h | h
          · exact Or.inr ⟨.parsed t, by simp [h], by simp⟩
          · exact Or.inl h
      · exact Or.inr ⟨o', List.mem_cons_of_mem _ ho', hne⟩
    · rintro (h | ⟨o', ho', hne⟩)
      · cases o with
        | unreadable => exact Or.inl h
        | unparseable => exact Or.inl ((dmem_dinsert fi₀ q p _) ▸ Or.inr h)
        | parsed t => exact Or.inl ((dmem_dinsert fi₀ q p _) ▸ Or.inr h)
      · rcases List.mem_cons.mp ho' with heq | ho'
        · obtain ⟨rfl, rfl⟩ := Prod.mk.injEq .. ▸ heq
          cases o' with
          | unreadable => exact absurd rfl hne
          | unparseable => exact Or.inl ((dmem_dinsert fi₀ p p _) ▸ Or.inl rfl)
          | parsed t => exact Or.inl ((dmem_dinsert fi₀ p p _) ▸ Or.inl rfl)
        · exact Or.inr ⟨o', ho', hne⟩

/-- C8 (amended): a file whose syntax fails to parse contributes zero
declarations and zero classes and still gets a FileRecord (path, language
tag, folder); an unreadable file also contributes zero declarations and
zero classes but gets no FileRecord — its empty info dict is skipped at
merge, so `file_info` holds exactly the files with a non-unreadable
outcome; and the scan's declaration/class lists are the in-order
concatenation of every file's own contribution, so all other files'
results are returned. -/
theorem scan_failure_handling (files : List (String × FileOutcome)) (p : String) :
    scraperProcessFile p FileOutcome.unreadable = ([], [], none) ∧
    scraperProcessFile p FileOutcome.unparseable =
      ([], [], some ⟨p, splitextExt p, dirname p⟩) ∧
    (dmem (scan_repository files).2.2.1 p = true ↔
      ∃ o, (p, o) ∈ files ∧ o ≠ FileOutcome.unreadable) ∧
    (scan_repository files).1 =
      (files.map (fun pf => (scraperProcessFile pf.1 pf.2).1)).flatten ∧
    (scan_repository files).2.1 =
      (files.map (fun pf => (scraperProcessFile pf.1 pf.2).2.1)).flatten := by
  refine ⟨rfl, rfl, ?_, by simp [scan_repository, List.map_map]; rfl,
    by simp [scan_repository, List.map_map]; rfl⟩
  have h := dmem_scan_fileinfo_fold files [] p
  simp only [dmem, dlookup, Option.isSome_none, Bool.false_eq_true, false_or] at h
  simpa [scan_repository] using h

/-! ## Resolver proofs: relation-set accessors and single-edge effects -/

/-- The relation set selected by `fld` at key `k` (empty when the key is
absent). -/
def fieldOf (fld : RelEntry → Finset String) (g : Graph) (k : String) :
    Finset String :=
  ((dlookup g k).map fld).getD ∅

/-- The `calls` set at key `k`. -/
def callsOf (g : Graph) (k : String) : Finset String :=
  fieldOf RelEntry.calls g k

/-- The `called_by` set at key `k`. -/
def calledByOf (g : Graph) (k : String) : Finset String :=
  fieldOf RelEntry.called_by g k

/-- The `uses` set at key `k`. -/
def usesOf (g : Graph) (k : String) : Finset String :=
  fieldOf RelEntry.uses g k

/-- The `used_by` set at key `k`. -/
def usedByOf (g : Graph) (k : String) : Finset String :=
  fieldOf RelEntry.used_by g k

/-- The `contains` set at key `k` (empty when absent or keyless). -/
def containsOf (g : Graph) (k : String) : Finset String :=
  fieldOf (fun r => r.contains.getD ∅) g k

theorem dmem_addCallEdge (g : Graph) (s t k : String) :
    dmem (addCallEdge g s t) k = dmem g k := by
  simp [addCallEdge, dmem_dmodify]

theorem dmem_addUseEdge (g : Graph) (s t k : String) :
    dmem (addUseEdge g s t) k = dmem g k := by
  simp [addUseEdge, dmem_dmodify]

theorem fieldOf_dmodify (fld : RelEntry → Finset String) (f : RelEntry → RelEntry)
    (g : Graph) (m k : String) :
    fieldOf fld (dmodify g m f) k =
      if k = m then ((dlookup g m).map (fun r => fld (f r))).getD ∅
      else fieldOf fld g k := by
  by_cases h : k = m <;>
    simp [fieldOf, dlookup_dmodify, h, Option.map_map, Function.comp_def]

theorem fieldOf_dmodify_untouched (fld : RelEntry → Finset String)
    (f : RelEntry → RelEntry) (hf : ∀ r, fld (f r) = fld r)
    (g : Graph) (m k : String) :
    fieldOf fld (dmodify g m f) k = fieldOf fld g k := by
  rw [fieldOf_dmodify]
  by_cases h : k = m <;> simp [h, hf, fieldOf]

theorem fieldOf_eq_of_lookup {g : Graph} {k : String} {r : RelEntry}
    (fld : RelEntry → Finset String) (h : dlookup g k = some r) :
    fieldOf fld g k = fld r := by
  simp [fieldOf, h]

theorem callsOf_addCallEdge (g : Graph) (s t k : String)
    (hs : dmem g s = true) :
    callsOf (addCallEdge g s t) k =
      if k = s then insert t (callsOf g s) else callsOf g k := by
  obtain ⟨rs, hrs⟩ := Option.isSome_iff_exists.mp hs
  simp only [callsOf, fieldOf, addCallEdge, dlookup_dmodify, Option.map_map]
  by_cases hkt : k = t <;> by_cases hks : k = s <;>
    simp_all [Function.comp_def]

theorem calledByOf_addCallEdge (g : Graph) (s t k : String)
    (ht : dmem g t = true) :
    calledByOf (addCallEdge g s t) k =
      if k = t then insert s (calledByOf g t) else calledByOf g k := by
  obtain ⟨rt, hrt⟩ := Option.isSome_iff_exists.mp ht
  simp only [calledByOf, fieldOf, addCallEdge, dlookup_dmodify, Option.map_map]
  by_cases hkt : k = t <;> by_cases hks : k = s <;> by_cases hts : t = s <;>
    simp_all [Function.comp_def]

theorem usesOf_addCallEdge (g : Graph) (s t k : String) :
    usesOf (addCallEdge g s t) k = usesOf g k := by
  simp only [usesOf, fieldOf, addCallEdge, dlookup_dmodify, Option.map_map]
  by_cases hkt : k = t <;> by_cases hks : k = s <;>
    simp_all [Function.comp_def]

theorem usedByOf_addCallEdge (g : Graph) (s t k : String) :
    usedByOf (addCallEdge g s t) k = usedByOf g k := by
  simp only [usedByOf, fieldOf, addCallEdge, dlookup_dmodify, Option.map_map]
  by_cases hkt : k = t <;> by_cases hks : k = s <;>
    simp_all [Function.comp_def]

theorem containsOf_addCallEdge (g : Graph) (s t k : String) :
    containsOf (addCallEdge g s t) k = containsOf g k := by
  simp only [containsOf, fieldOf, addCallEdge, dlookup_dmodify, Option.map_map]
  by_cases hkt : k = t <;> by_cases hks : k = s <;>
    simp_all [Function.comp_def]

theorem usesOf_addUseEdge (g : Graph) (s t k : String)
    (hs : dmem g s = true) :
    usesOf (addUseEdge g s t) k =
      if k = s then insert t (usesOf g s) else usesOf g k := by
  obtain ⟨rs, hrs⟩ := Option.isSome_iff_exists.mp hs
  simp only [usesOf, fieldOf, addUseEdge, dlookup_dmodify, Option.map_map]
  by_cases hkt : k = t <;> by_cases hks : k = s <;>
    simp_all [Function.comp_def]

theorem usedByOf_addUseEdge (g : Graph) (s t k : String)
    (ht : dmem g t = true) :
    usedByOf (addUseEdge g s t) k =
      if k = t then insert s (usedByOf g t) else usedByOf g k := by
  obtain ⟨rt, hrt⟩ := Option.isSome_iff_exists.mp ht
  simp only [usedByOf, fieldOf, addUseEdge, dlookup_dmodify, Option.map_map]
  by_cases hkt : k = t <;> by_cases hks : k = s <;> by_cases hts : t = s <;>
    simp_all [Function.comp_def]

theorem callsOf_addUseEdge (g : Graph) (s t k : String) :
    callsOf (addUseEdge g s t) k = callsOf g k := by
  simp only [callsOf, fieldOf, addUseEdge, dlookup_dmodify, Option.map_map]
  by_cases hkt : k = t <;> by_cases hks : k = s <;>
    simp_all [Function.comp_def]

theorem calledByOf_addUseEdge (g : Graph) (s t k : String) :
    calledByOf (addUseEdge g s t) k = calledByOf g k := by
  simp only [calledByOf, fieldOf, addUseEdge, dlookup_dmodify, Option.map_map]
  by_cases hkt : k = t <;> by_cases hks : k = s <;>
    simp_all [Function.comp_def]

theorem containsOf_addUseEdge (g : Graph) (s t k : String) :
    containsOf (addUseEdge g s t) k = containsOf g k := by
  simp only [containsOf, fieldOf, addUseEdge, dlookup_dmodify, Option.map_map]
  by_cases hkt : k = t <;> by_cases hks : k = s <;>
    simp_all [Function.comp_def]

/-! ## Resolver proofs: invariants and their preservation -/

/-- The mirror invariant: `calls`/`called_by` and `uses`/`used_by` agree
as mirrored pairs between every two present node keys. -/
def Mirror (g : Graph) : Prop :=
  ∀ a b, dmem g a = true → dmem g b = true →
    ((b ∈ callsOf g a ↔ a ∈ calledByOf g b) ∧
     (b ∈ usesOf g a ↔ a ∈ usedByOf g b))

/-- The closure invariant: every key named in any relation set is a key
of the graph. -/
def ClosedG (g : Graph) : Prop :=
  ∀ k, (∀ x ∈ callsOf g k, dmem g x = true) ∧
       (∀ x ∈ calledByOf g k, dmem g x = true) ∧
       (∀ x ∈ usesOf g k, dmem g x = true) ∧
       (∀ x ∈ usedByOf g k, dmem g x = true) ∧
       (∀ x ∈ containsOf g k, dmem g x = true)

theorem Mirror_addCallEdge {g : Graph} {s t : String} (h : Mirror g)
    (hs : dmem g s = true) (ht : dmem g t = true) :
    Mirror (addCallEdge g s t) := by
  intro a b ha hb
  rw [dmem_addCallEdge] at ha hb
  obtain ⟨hmain, huses⟩ := h a b ha hb
  constructor
  · rw [callsOf_addCallEdge g s t a hs, calledByOf_addCallEdge g s t b ht]
    by_cases has : a = s <;> by_cases hbt : b = t
    · subst has; subst hbt; simp
    · subst has
      rw [if_pos rfl, if_neg hbt, Finset.mem_insert]
      simp only [hbt, false_or]
      exact hmain
    · subst hbt
      rw [if_neg has, if_pos rfl, Finset.mem_insert]
      simp only [has, false_or]
      exact hmain
    · rw [if_neg has, if_neg hbt]
      exact hmain
  · rw [usesOf_addCallEdge, usedByOf_addCallEdge]
    exact huses

theorem Mirror_addUseEdge {g : Graph} {s t : String} (h : Mirror g)
    (hs : dmem g s = true) (ht : dmem g t = true) :
    Mirror (addUseEdge g s t) := by
  intro a b ha hb
  rw [dmem_addUseEdge] at ha hb
  obtain ⟨hmain, huses⟩ := h a b ha hb
  constructor
  · rw [callsOf_addUseEdge, calledByOf_addUseEdge]
    exact hmain
  · rw [usesOf_addUseEdge g s t a hs, usedByOf_addUseEdge g s t b ht]
    by_cases has : a = s <;> by_cases hbt : b = t
    · subst has; subst hbt; simp
    · subst has
      rw [if_pos rfl, if_neg hbt, Finset.mem_insert]
      simp only [hbt, false_or]
      exact huses
    · subst hbt
      rw [if_neg has, if_pos rfl, Finset.mem_insert]
      simp only [has, false_or]
      exact huses
    · rw [if_neg has, if_neg hbt]
      exact huses

theorem ClosedG_addCallEdge {g : Graph} {s t : String} (h : ClosedG g)
    (hs : dmem g s = true) (ht : dmem g t = true) :
    ClosedG (addCallEdge g s t) := by
  intro k
  refine ⟨fun x hx => ?_, fun x hx => ?_, fun x hx => ?_, fun x hx => ?_,
    fun x hx => ?_⟩ <;> rw [dmem_addCallEdge]
  · rw [callsOf_addCallEdge g s t k hs] at hx
    by_cases hks : k = s
    · rw [if_pos hks, Finset.mem_insert] at hx
      rcases hx with rfl | hx
      · exact ht
      · exact (h s).1 x hx
    · rw [if_neg hks] at hx
      exact (h k).1 x hx
  · rw [calledByOf_addCallEdge g s t k ht] at hx
    by_cases hkt : k = t
    · rw [if_pos hkt, Finset.mem_insert] at hx
      rcases hx with rfl | hx
      · exact hs
      · exact (h t).2.1 x hx
    · rw [if_neg hkt] at hx
      exact (h k).2.1 x hx
  · rw [usesOf_addCallEdge] at hx
    exact (h k).2.2.1 x hx
  · rw [usedByOf_addCallEdge] at hx
    exact (h k).2.2.2.1 x hx
  · rw [containsOf_addCallEdge] at hx
    exact (h k).2.2.2.2 x hx

theorem ClosedG_addUseEdge {g : Graph} {s t : String} (h : ClosedG g)
    (hs : dmem g s = true) (ht : dmem g t = true) :
    ClosedG (addUseEdge g s t) := by
  intro k
  refine ⟨fun x hx => ?_, fun x hx => ?_, fun x hx => ?_, fun x hx => ?_,
    fun x hx => ?_⟩ <;> rw [dmem_addUseEdge]
  · rw [callsOf_addUseEdge] at hx
    exact (h k).1 x hx
  · rw [calledByOf_addUseEdge] at hx
    exact (h k).2.1 x hx
  · rw [usesOf_addUseEdge g s t k hs] at hx
    by_cases hks : k = s
    · rw [if_pos hks, Finset.mem_insert] at hx
      rcases hx with rfl | hx
      · exact ht
      · exact (h s).2.2.1 x hx
    · rw [if_neg hks] at hx
      exact (h k).2.2.1 x hx
  · rw [usedByOf_addUseEdge g s t k ht] at hx
    by_cases hkt : k = t
    · rw [if_pos hkt, Finset.mem_insert] at hx
      rcases hx with rfl | hx
      · exact hs
      · exact (h t).2.2.2.1 x hx
    · rw [if_neg hkt] at hx
      exact (h k).2.2.2.1 x hx
  · rw [containsOf_addUseEdge] at hx
    exact (h k).2.2.2.2 x hx

/-! ## Resolver proofs: domain stability of the edge passes -/

theorem dmem_procCalls (g : Graph) (fid file : String) (ns : List String)
    (k : String) : dmem (procCalls g fid file ns) k = dmem g k := by
  induction ns generalizing g with
  | nil => rfl
  | cons n ns ih =>
    simp only [procCalls, List.foldl_cons] at ih ⊢
    rw [ih]
    by_cases hg : dmem g (file ++ ":" ++ n) = true <;>
      simp [hg, dmem_addCallEdge]

theorem dmem_fanout (g : Graph) (fid : String) (ids : List String)
    (k : String) :
    dmem (ids.foldl (fun g cid => addUseEdge g fid cid) g) k = dmem g k := by
  induction ids generalizing g with
  | nil => rfl
  | cons i ids ih =>
    simp only [List.foldl_cons]
    rw [ih, dmem_addUseEdge]

theorem dmem_procUses (cmap : List (String × List String)) (g : Graph)
    (fid file : String) (ns : List String) (k : String) :
    dmem (procUses cmap g fid file ns) k = dmem g k := by
  induction ns generalizing g with
  | nil => rfl
  | cons n ns ih =>
    simp only [procUses, List.foldl_cons] at ih ⊢
    rw [ih]
    by_cases hg : dmem g (file ++ ":" ++ n) = true
    · simp [hg, dmem_addUseEdge]
    · simp only [hg]
      cases dlookup cmap n <;> simp [hg, dmem_fanout]

theorem dmem_procFuncEdges (cmap : List (String × List String)) (g : Graph)
    (f : FunctionMetadata) (k : String) :
    dmem (procFuncEdges cmap g f) k = dmem g k := by
  unfold procFuncEdges
  rw [dmem_procUses, dmem_procCalls]

theorem dmem_edge_fold (cmap : List (String × List String))
    (ds : List FunctionMetadata) (g : Graph) (k : String) :
    dmem (ds.foldl (procFuncEdges cmap) g) k = dmem g k := by
  induction ds generalizing g with
  | nil => rfl
  | cons d ds ih =>
    simp only [List.foldl_cons]
    rw [ih, dmem_procFuncEdges]

/-! ## Resolver proofs: invariant preservation through the edge passes -/

/-- Every node key listed in the class-name index is present in `g`. -/
def CmapInDom (cmap : List (String × List String)) (g : Graph) : Prop :=
  ∀ n ids, dlookup cmap n = some ids → ∀ x ∈ ids, dmem g x = true

theorem CmapInDom_of_domEq {cmap : List (String × List String)} {g g' : Graph}
    (h : CmapInDom cmap g) (he : ∀ k, dmem g' k = dmem g k) :
    CmapInDom cmap g' := by
  intro n ids hl x hx
  rw [he x]
  exact h n ids hl x hx

theorem Mirror_fanout {g : Graph} {fid : String} {ids : List String}
    (h : Mirror g) (hf : dmem g fid = true)
    (hids : ∀ x ∈ ids, dmem g x = true) :
    Mirror (ids.foldl (fun g cid => addUseEdge g fid cid) g) := by
  induction ids generalizing g with
  | nil => exact h
  | cons i ids ih =>
    simp only [List.foldl_cons]
    refine ih (Mirror_addUseEdge h hf (hids i (List.mem_cons_self i ids))) ?_ ?_
    · rw [dmem_addUseEdge]; exact hf
    · intro x hx
      rw [dmem_addUseEdge]
      exact hids x (List.mem_cons_of_mem i hx)

theorem ClosedG_fanout {g : Graph} {fid : String} {ids : List String}
    (h : ClosedG g) (hf : dmem g fid = true)
    (hids : ∀ x ∈ ids, dmem g x = true) :
    ClosedG (ids.foldl (fun g cid => addUseEdge g fid cid) g) := by
  induction ids generalizing g with
  | nil => exact h
  | cons i ids ih =>
    simp only [List.foldl_cons]
    refine ih (ClosedG_addUseEdge h hf (hids i (List.mem_cons_self i ids))) ?_ ?_
    · rw [dmem_addUseEdge]; exact hf
    · intro x hx
      rw [dmem_addUseEdge]
      exact hids x (List.mem_cons_of_mem i hx)

theorem Mirror_procCalls {g : Graph} {fid file : String} {ns : List String}
    (h : Mirror g) (hf : dmem g fid = true) :
    Mirror (procCalls g fid file ns) := by
  induction ns generalizing g with
  | nil => exact h
  | cons n ns ih =>
    simp only [procCalls, List.foldl_cons] at ih ⊢
    by_cases hg : dmem g (file ++ ":" ++ n) = true
    · simp only [hg, if_true]
      refine ih (Mirror_addCallEdge h hf hg) ?_
      rw [dmem_addCallEdge]; exact hf
    · simp only [hg, Bool.false_eq_true, if_false]
      exact ih h hf

theorem ClosedG_procCalls {g : Graph} {fid file : String} {ns : List String}
    (h : ClosedG g) (hf : dmem g fid = true) :
    ClosedG (procCalls g fid file ns) := by
  induction ns generalizing g with
  | nil => exact h
  | cons n ns ih =>
    simp only [procCalls, List.foldl_cons] at ih ⊢
    by_cases hg : dmem g (file ++ ":" ++ n) = true
    · simp only [hg, if_true]
      refine ih (ClosedG_addCallEdge h hf hg) ?_
      rw [dmem_addCallEdge]; exact hf
    · simp only [hg, Bool.false_eq_true, if_false]
      exact ih h hf

theorem Mirror_procUses {cmap : List (String × List String)} {g : Graph}
    {fid file : String} {ns : List String}
    (h : Mirror g) (hf : dmem g fid = true) (hc : CmapInDom cmap g) :
    Mirror (procUses cmap g fid file ns) := by
  induction ns generalizing g with
  | nil => exact h
  | cons n ns ih =>
    simp only [procUses, List.foldl_cons] at ih ⊢
    by_cases hg : dmem g (file ++ ":" ++ n) = true
    · simp only [hg, if_true]
      refine ih (Mirror_addUseEdge h hf hg) ?_ ?_
      · rw [dmem_addUseEdge]; exact hf
      · exact CmapInDom_of_domEq hc (dmem_addUseEdge g fid (file ++ ":" ++ n))
    · cases hl : dlookup cmap n with
      | none =>
        simp only [hg, hl, Bool.false_eq_true, if_false]
        exact ih h hf hc
      | some ids =>
        simp only [hg, hl, Bool.false_eq_true, if_false]
        refine ih (Mirror_fanout h hf (hc n ids hl)) ?_ ?_
        · rw [dmem_fanout]; exact hf
        · exact CmapInDom_of_domEq hc (dmem_fanout g fid ids)

theorem ClosedG_procUses {cmap : List (String × List String)} {g : Graph}
    {fid file : String} {ns : List String}
    (h : ClosedG g) (hf : dmem g fid = true) (hc : CmapInDom cmap g) :
    ClosedG (procUses cmap g fid file ns) := by
  induction ns generalizing g with
  | nil => exact h
  | cons n ns ih =>
    simp only [procUses, List.foldl_cons] at ih ⊢
    by_cases hg : dmem g (file ++ ":" ++ n) = true
    · simp only [hg, if_true]
      refine ih (ClosedG_addUseEdge h hf hg) ?_ ?_
      · rw [dmem_addUseEdge]; exact hf
      · exact CmapInDom_of_domEq hc (dmem_addUseEdge g fid (file ++ ":" ++ n))
    · cases hl : dlookup cmap n with
      | none =>
        simp only [hg, hl, Bool.false_eq_true, if_false]
        exact ih h hf hc
      | some ids =>
        simp only [hg, hl, Bool.false_eq_true, if_false]
        refine ih (ClosedG_fanout h hf (hc n ids hl)) ?_ ?_
        · rw [dmem_fanout]; exact hf
        · exact CmapInDom_of_domEq hc (dmem_fanout g fid ids)

theorem Mirror_procFuncEdges {cmap : List (String × List String)} {g : Graph}
    {f : FunctionMetadata}
    (h : Mirror g) (hf : dmem g (fmId f) = true) (hc : CmapInDom cmap g) :
    Mirror (procFuncEdges cmap g f) := by
  unfold procFuncEdges
  refine Mirror_procUses (Mirror_procCalls h hf) ?_ ?_
  · rw [dmem_procCalls]; exact hf
  · exact CmapInDom_of_domEq hc
      (fun k => dmem_procCalls g (fmId f) f.file_path f.called_functions k)

theorem ClosedG_procFuncEdges {cmap : List (String × List String)} {g : Graph}
    {f : FunctionMetadata}
    (h : ClosedG g) (hf : dmem g (fmId f) = true) (hc : CmapInDom cmap g) :
    ClosedG (procFuncEdges cmap g f) := by
  unfold procFuncEdges
  refine ClosedG_procUses (ClosedG_procCalls h hf) ?_ ?_
  · rw [dmem_procCalls]; exact hf
  · exact CmapInDom_of_domEq hc
      (fun k => dmem_procCalls g (fmId f) f.file_path f.called_functions k)

theorem Mirror_edge_fold {cmap : List (String × List String)}
    {ds : List FunctionMetadata} {g : Graph}
    (h : Mirror g) (hpres : ∀ d ∈ ds, dmem g (fmId d) = true)
    (hc : CmapInDom cmap g) :
    Mirror (ds.foldl (procFuncEdges cmap) g) := by
  induction ds generalizing g with
  | nil => exact h
  | cons d ds ih =>
    simp only [List.foldl_cons]
    refine ih
      (Mirror_procFuncEdges h (hpres d (List.mem_cons_self d ds)) hc) ?_ ?_
    · intro d' hd'
      rw [dmem_procFuncEdges]
      exact hpres d' (List.mem_cons_of_mem d hd')
    · exact CmapInDom_of_domEq hc (fun k => dmem_procFuncEdges cmap g d k)

theorem ClosedG_edge_fold {cmap : List (String × List String)}
    {ds : List FunctionMetadata} {g : Graph}
    (h : ClosedG g) (hpres : ∀ d ∈ ds, dmem g (fmId d) = true)
    (hc : CmapInDom cmap g) :
    ClosedG (ds.foldl (procFuncEdges cmap) g) := by
  induction ds generalizing g with
  | nil => exact h
  | cons d ds ih =>
    simp only [List.foldl_cons]
    refine ih
      (ClosedG_procFuncEdges h (hpres d (List.mem_cons_self d ds)) hc) ?_ ?_
    · intro d' hd'
      rw [dmem_procFuncEdges]
      exact hpres d' (List.mem_cons_of_mem d hd')
    · exact CmapInDom_of_domEq hc (fun k => dmem_procFuncEdges cmap g d k)

/-! ## Resolver proofs: the initialization passes -/

theorem foldlM_option_inv {γ β : Type} (step : γ → β → Option γ) (P : γ → Prop)
    (l : List β) (g₀ g' : γ) (h : List.foldlM step g₀ l = some g')
    (hg : P g₀)
    (hstep : ∀ g b g'', b ∈ l → step g b = some g'' → P g → P g'') : P g' := by
  induction l generalizing g₀ with
  | nil =>
    simp only [List.foldlM_nil, Option.pure_def, Option.some.injEq] at h
    exact h ▸ hg
  | cons b l ih =>
    rw [List.foldlM_cons] at h
    obtain ⟨g₁, h1, hrest⟩ := Option.bind_eq_some.mp h
    exact ih g₁ hrest (hstep g₀ b g₁ (List.mem_cons_self b l) h1 hg)
      (fun g b' g'' hb' => hstep g b' g'' (List.mem_cons_of_mem b hb'))

theorem foldlM_option_estab {γ β : Type} (step : γ → β → Option γ) (Q : γ → Prop)
    (l : List β) (g₀ g' : γ) (h : List.foldlM step g₀ l = some g')
    (b₀ : β) (hb : b₀ ∈ l)
    (hestab : ∀ g g'', step g b₀ = some g'' → Q g'')
    (hmono : ∀ g b g'', b ∈ l → step g b = some g'' → Q g → Q g'') : Q g' := by
  induction l generalizing g₀ with
  | nil => cases hb
  | cons b l ih =>
    rw [List.foldlM_cons] at h
    obtain ⟨g₁, h1, hrest⟩ := Option.bind_eq_some.mp h
    rcases List.mem_cons.mp hb with rfl | hb'
    · exact foldlM_option_inv step Q l g₁ g' hrest (hestab g₀ g₁ h1)
        (fun g b' g'' hb' => hmono g b' g'' (List.mem_cons_of_mem b₀ hb'))
    · exact ih g₁ hrest hb'
        (fun g b' g'' hb'' => hmono g b' g'' (List.mem_cons_of_mem b hb''))

/-- All four edge sets of every record are empty (the state of the graph
right after the initialization passes, before any edge is added). -/
def EdgesEmpty (g : Graph) : Prop :=
  ∀ k, callsOf g k = ∅ ∧ calledByOf g k = ∅ ∧ usesOf g k = ∅ ∧ usedByOf g k = ∅

theorem fieldOf_dinsert (fld : RelEntry → Finset String) (g : Graph)
    (k : String) (v : RelEntry) (k' : String) :
    fieldOf fld (dinsert g k v) k' = if k' = k then fld v else fieldOf fld g k' := by
  by_cases h : k' = k <;> simp [fieldOf, dlookup_dinsert, h]

theorem callsOf_dinsert (g : Graph) (k : String) (v : RelEntry) (k' : String) :
    callsOf (dinsert g k v) k' = if k' = k then v.calls else callsOf g k' :=
  fieldOf_dinsert RelEntry.calls g k v k'

theorem calledByOf_dinsert (g : Graph) (k : String) (v : RelEntry) (k' : String) :
    calledByOf (dinsert g k v) k' =
      if k' = k then v.called_by else calledByOf g k' :=
  fieldOf_dinsert RelEntry.called_by g k v k'

theorem usesOf_dinsert (g : Graph) (k : String) (v : RelEntry) (k' : String) :
    usesOf (dinsert g k v) k' = if k' = k then v.uses else usesOf g k' :=
  fieldOf_dinsert RelEntry.uses g k v k'

theorem usedByOf_dinsert (g : Graph) (k : String) (v : RelEntry) (k' : String) :
    usedByOf (dinsert g k v) k' = if k' = k then v.used_by else usedByOf g k' :=
  fieldOf_dinsert RelEntry.used_by g k v k'

theorem containsOf_dinsert (g : Graph) (k : String) (v : RelEntry) (k' : String) :
    containsOf (dinsert g k v) k' =
      if k' = k then v.contains.getD ∅ else containsOf g k' :=
  fieldOf_dinsert (fun r => r.contains.getD ∅) g k v k'

theorem callsOf_eq {g : Graph} {k : String} {r : RelEntry}
    (h : dlookup g k = some r) : callsOf g k = r.calls :=
  fieldOf_eq_of_lookup RelEntry.calls h

theorem calledByOf_eq {g : Graph} {k : String} {r : RelEntry}
    (h : dlookup g k = some r) : calledByOf g k = r.called_by :=
  fieldOf_eq_of_lookup RelEntry.called_by h

theorem usesOf_eq {g : Graph} {k : String} {r : RelEntry}
    (h : dlookup g k = some r) : usesOf g k = r.uses :=
  fieldOf_eq_of_lookup RelEntry.uses h

theorem usedByOf_eq {g : Graph} {k : String} {r : RelEntry}
    (h : dlookup g k = some r) : usedByOf g k = r.used_by :=
  fieldOf_eq_of_lookup RelEntry.used_by h

theorem containsOf_eq {g : Graph} {k : String} {r : RelEntry}
    (h : dlookup g k = some r) : containsOf g k = r.contains.getD ∅ :=
  fieldOf_eq_of_lookup (fun r => r.contains.getD ∅) h

theorem EdgesEmpty_mirror {g : Graph} (h : EdgesEmpty g) : Mirror g := by
  intro a b _ _
  obtain ⟨ha1, ha2, ha3, ha4⟩ := h a
  obtain ⟨hb1, hb2, hb3, hb4⟩ := h b
  rw [ha1, ha3, hb2, hb4]
  simp

theorem addMethodInit_props {g : Graph} {clsId : String} {m : FunctionMetadata}
    {g' : Graph} (h : addMethodInit g clsId m = some g') :
    (∀ k, dmem g k = true → dmem g' k = true) ∧ dmem g' (fmId m) = true ∧
    (EdgesEmpty g → EdgesEmpty g') ∧ (ClosedG g → ClosedG g') := by
  unfold addMethodInit at h
  cases hr : dlookup g clsId with
  | none => simp only [hr] at h; cases h
  | some r =>
    cases hc : r.contains with
    | none => simp only [hr, hc] at h; cases h
    | some s =>
      simp only [hr, hc, Option.some.injEq] at h
      subst h
      set r' : RelEntry := { r with contains := some (insert (fmId m) s) } with hr'
      have hdm : ∀ x, dmem (dinsert (dinsert g clsId r') (fmId m)
            emptyFuncEntry) x = true ↔
          (x = fmId m ∨ x = clsId ∨ dmem g x = true) := by
        intro x
        rw [dmem_dinsert, dmem_dinsert]
      refine ⟨?_, ?_, ?_, ?_⟩
      · intro k hk
        rw [hdm]
        exact Or.inr (Or.inr hk)
      · rw [hdm]
        exact Or.inl rfl
      · intro he k
        obtain ⟨e1, e2, e3, e4⟩ := he k
        obtain ⟨c1, c2, c3, c4⟩ := he clsId
        rw [callsOf_eq hr] at c1
        rw [calledByOf_eq hr] at c2
        rw [usesOf_eq hr] at c3
        rw [usedByOf_eq hr] at c4
        refine ⟨?_, ?_, ?_, ?_⟩
        · rw [callsOf_dinsert, callsOf_dinsert]
          by_cases h1 : k = fmId m <;> by_cases h2 : k = clsId <;>
            simp [h1, h2, emptyFuncEntry, hr', c1, e1]
        · rw [calledByOf_dinsert, calledByOf_dinsert]
          by_cases h1 : k = fmId m <;> by_cases h2 : k = clsId <;>
            simp [h1, h2, emptyFuncEntry, hr', c2, e2]
        · rw [usesOf_dinsert, usesOf_dinsert]
          by_cases h1 : k = fmId m <;> by_cases h2 : k = clsId <;>
            simp [h1, h2, emptyFuncEntry, hr', c3, e3]
        · rw [usedByOf_dinsert, usedByOf_dinsert]
          by_cases h1 : k = fmId m <;> by_cases h2 : k = clsId <;>
            simp [h1, h2, emptyFuncEntry, hr', c4, e4]
      · intro hcl k
        have hmono : ∀ x, dmem g x = true →
            dmem (dinsert (dinsert g clsId r') (fmId m)
              emptyFuncEntry) x = true := by
          intro x hx
          rw [hdm]
          exact Or.inr (Or.inr hx)
        obtain ⟨p1, p2, p3, p4, p5⟩ := hcl k
        obtain ⟨q1, q2, q3, q4, q5⟩ := hcl clsId
        refine ⟨?_, ?_, ?_, ?_, ?_⟩ <;> intro x hx
        · rw [callsOf_dinsert, callsOf_dinsert] at hx
          by_cases h1 : k = fmId m
          · rw [if_pos h1] at hx
            simp [emptyFuncEntry] at hx
          · rw [if_neg h1] at hx
            by_cases h2 : k = clsId
            · rw [if_pos h2] at hx
              exact hmono x (q1 x ((callsOf_eq hr).symm ▸ hx))
            · rw [if_neg h2] at hx
              exact hmono x (p1 x hx)
        · rw [calledByOf_dinsert, calledByOf_dinsert] at hx
          by_cases h1 : k = fmId m
          · rw [if_pos h1] at hx
            simp [emptyFuncEntry] at hx
          · rw [if_neg h1] at hx
            by_cases h2 : k = clsId
            · rw [if_pos h2] at hx
              exact hmono x (q2 x ((calledByOf_eq hr).symm ▸ hx))
            · rw [if_neg h2] at hx
              exact hmono x (p2 x hx)
        · rw [usesOf_dinsert, usesOf_dinsert] at hx
          by_cases h1 : k = fmId m
          · rw [if_pos h1] at hx
            simp [emptyFuncEntry] at hx
          · rw [if_neg h1] at hx
            by_cases h2 : k = clsId
            · rw [if_pos h2] at hx
              exact hmono x (q3 x ((usesOf_eq hr).symm ▸ hx))
            · rw [if_neg h2] at hx
              exact hmono x (p3 x hx)
        · rw [usedByOf_dinsert, usedByOf_dinsert] at hx
          by_cases h1 : k = fmId m
          · rw [if_pos h1] at hx
            simp [emptyFuncEntry] at hx
          · rw [if_neg h1] at hx
            by_cases h2 : k = clsId
            · rw [if_pos h2] at hx
              exact hmono x (q4 x ((usedByOf_eq hr).symm ▸ hx))
            · rw [if_neg h2] at hx
              exact hmono x (p4 x hx)
        · rw [containsOf_dinsert, containsOf_dinsert] at hx
          by_cases h1 : k = fmId m
          · rw [if_pos h1] at hx
            simp [emptyFuncEntry] at hx
          · rw [if_neg h1] at hx
            by_cases h2 : k = clsId
            · rw [if_pos h2] at hx
              simp only [hr', Option.getD_some, Finset.mem_insert] at hx
              rcases hx with rfl | hx
              · rw [hdm]
                exact Or.inl rfl
              · refine hmono x (q5 x ?_)
                rw [containsOf_eq hr, hc]
                exact hx
            · rw [if_neg h2] at hx
              exact hmono x (p5 x hx)

theorem EdgesEmpty_dinsert_entry {g : Graph} {k : String} (h : EdgesEmpty g)
    (v : RelEntry) (hv : v.calls = ∅ ∧ v.called_by = ∅ ∧ v.uses = ∅ ∧
      v.used_by = ∅) : EdgesEmpty (dinsert g k v) := by
  intro k'
  rw [callsOf_dinsert, calledByOf_dinsert, usesOf_dinsert, usedByOf_dinsert]
  obtain ⟨h1, h2, h3, h4⟩ := h k'
  by_cases hk : k' = k <;> simp [hk, hv.1, hv.2.1, hv.2.2.1, hv.2.2.2, h1, h2, h3, h4]

theorem ClosedG_dinsert_inert {g : Graph} {k : String} (h : ClosedG g)
    (v : RelEntry) (hv : v.calls = ∅ ∧ v.called_by = ∅ ∧ v.uses = ∅ ∧
      v.used_by = ∅ ∧ v.contains.getD ∅ = ∅) : ClosedG (dinsert g k v) := by
  intro k'
  obtain ⟨p1, p2, p3, p4, p5⟩ := h k'
  refine ⟨?_, ?_, ?_, ?_, ?_⟩ <;> intro x hx
  · rw [callsOf_dinsert] at hx
    by_cases hk : k' = k
    · rw [if_pos hk, hv.1] at hx; cases Finset.not_mem_empty x hx
    · rw [if_neg hk] at hx; exact dmem_dinsert_of_mem _ _ (p1 x hx)
  · rw [calledByOf_dinsert] at hx
    by_cases hk : k' = k
    · rw [if_pos hk, hv.2.1] at hx; cases Finset.not_mem_empty x hx
    · rw [if_neg hk] at hx; exact dmem_dinsert_of_mem _ _ (p2 x hx)
  · rw [usesOf_dinsert] at hx
    by_cases hk : k' = k
    · rw [if_pos hk, hv.2.2.1] at hx; cases Finset.not_mem_empty x hx
    · rw [if_neg hk] at hx; exact dmem_dinsert_of_mem _ _ (p3 x hx)
  · rw [usedByOf_dinsert] at hx
    by_cases hk : k' = k
    · rw [if_pos hk, hv.2.2.2.1] at hx; cases Finset.not_mem_empty x hx
    · rw [if_neg hk] at hx; exact dmem_dinsert_of_mem _ _ (p4 x hx)
  · rw [containsOf_dinsert] at hx
    by_cases hk : k' = k
    · rw [if_pos hk, hv.2.2.2.2] at hx; cases Finset.not_mem_empty x hx
    · rw [if_neg hk] at hx; exact dmem_dinsert_of_mem _ _ (p5 x hx)

theorem procClass_props {g : Graph} {cls : ClassMetadata} {g' : Graph}
    (h : procClass g cls = some g') :
    (∀ k, dmem g k = true → dmem g' k = true) ∧ dmem g' (cmId cls) = true ∧
    (∀ m ∈ cls.methods, dmem g' (fmId m) = true) ∧
    (EdgesEmpty g → EdgesEmpty g') ∧ (ClosedG g → ClosedG g') := by
  unfold procClass at h
  have base : ∀ k, dmem g k = true →
      dmem (dinsert g (cmId cls) emptyClassEntry) k = true :=
    fun k hk => dmem_dinsert_of_mem _ _ hk
  have basePres : dmem (dinsert g (cmId cls) emptyClassEntry) (cmId cls) = true := by
    rw [dmem_dinsert]; exact Or.inl rfl
  have main := foldlM_option_inv _
    (fun g'' => (∀ k, dmem g k = true → dmem g'' k = true) ∧
      dmem g'' (cmId cls) = true ∧
      (EdgesEmpty g → EdgesEmpty g'') ∧ (ClosedG g → ClosedG g''))
    cls.methods _ g' h
    ⟨base, basePres,
      fun he => EdgesEmpty_dinsert_entry he emptyClassEntry ⟨rfl, rfl, rfl, rfl⟩,
      fun hcl => ClosedG_dinsert_inert hcl emptyClassEntry ⟨rfl, rfl, rfl, rfl, rfl⟩⟩
    (fun gg m gg' _ hstep hP =>
      let props := addMethodInit_props hstep
      ⟨fun k hk => props.1 k (hP.1 k hk), props.1 _ hP.2.1,
        fun he => props.2.2.1 (hP.2.2.1 he),
        fun hcl => props.2.2.2 (hP.2.2.2 hcl)⟩)
  refine ⟨main.1, main.2.1, ?_, main.2.2.1, main.2.2.2⟩
  intro m hm
  exact foldlM_option_estab _ (fun g'' => dmem g'' (fmId m) = true)
    cls.methods _ g' h m hm
    (fun gg gg' hstep => (addMethodInit_props hstep).2.1)
    (fun gg b gg' _ hstep hq => (addMethodInit_props hstep).1 _ hq)

theorem initClassPass_props {classes : List ClassMetadata} {g₀ g : Graph}
    (h : initClassPass g₀ classes = some g) :
    (∀ k, dmem g₀ k = true → dmem g k = true) ∧
    (∀ cls ∈ classes, dmem g (cmId cls) = true) ∧
    (∀ cls ∈ classes, ∀ m ∈ cls.methods, dmem g (fmId m) = true) ∧
    (EdgesEmpty g₀ → EdgesEmpty g) ∧ (ClosedG g₀ → ClosedG g) := by
  unfold initClassPass at h
  refine ⟨?_, ?_, ?_, ?_, ?_⟩
  · exact foldlM_option_inv _ (fun g'' => ∀ k, dmem g₀ k = true → dmem g'' k = true)
      classes g₀ g h (fun k hk => hk)
      (fun gg cls gg' _ hstep hP k hk => (procClass_props hstep).1 k (hP k hk))
  · intro cls hcls
    exact foldlM_option_estab _ (fun g'' => dmem g'' (cmId cls) = true)
      classes g₀ g h cls hcls
      (fun gg gg' hstep => (procClass_props hstep).2.1)
      (fun gg b gg' _ hstep hq => (procClass_props hstep).1 _ hq)
  · intro cls hcls m hm
    exact foldlM_option_estab _ (fun g'' => dmem g'' (fmId m) = true)
      classes g₀ g h cls hcls
      (fun gg gg' hstep => (procClass_props hstep).2.2.1 m hm)
      (fun gg b gg' _ hstep hq => (procClass_props hstep).1 _ hq)
  · intro he
    exact foldlM_option_inv _ (fun g'' => EdgesEmpty g'') classes g₀ g h he
      (fun gg cls gg' _ hstep hP => (procClass_props hstep).2.2.2.1 hP)
  · intro hcl
    exact foldlM_option_inv _ (fun g'' => ClosedG g'') classes g₀ g h hcl
      (fun gg cls gg' _ hstep hP => (procClass_props hstep).2.2.2.2 hP)

theorem initFuncPass_props (g : Graph) (functions : List FunctionMetadata) :
    (∀ k, dmem g k = true → dmem (initFuncPass g functions) k = true) ∧
    (∀ f ∈ functions, dmem (initFuncPass g functions) (fmId f) = true) ∧
    (EdgesEmpty g → EdgesEmpty (initFuncPass g functions)) ∧
    (ClosedG g → ClosedG (initFuncPass g functions)) := by
  induction functions generalizing g with
  | nil =>
    exact ⟨fun k hk => hk, fun f hf => absurd hf (List.not_mem_nil f),
      fun he => he, fun hc => hc⟩
  | cons f fs ih =>
    simp only [initFuncPass, List.foldl_cons] at ih ⊢
    by_cases hg : dmem g (fmId f) = true
    · simp only [hg, if_true]
      obtain ⟨m1, m2, m3, m4⟩ := ih g
      refine ⟨m1, ?_, m3, m4⟩
      intro f' hf'
      rcases List.mem_cons.mp hf' with rfl | hf'
      · exact m1 _ hg
      · exact m2 f' hf'
    · simp only [hg, Bool.false_eq_true, if_false]
      obtain ⟨m1, m2, m3, m4⟩ := ih (dinsert g (fmId f) emptyFuncEntry)
      refine ⟨fun k hk => m1 k (dmem_dinsert_of_mem _ _ hk), ?_,
        fun he => m3 (EdgesEmpty_dinsert_entry he emptyFuncEntry
          ⟨rfl, rfl, rfl, rfl⟩),
        fun hc => m4 (ClosedG_dinsert_inert hc emptyFuncEntry
          ⟨rfl, rfl, rfl, rfl, rfl⟩)⟩
      intro f' hf'
      rcases List.mem_cons.mp hf' with rfl | hf'
      · refine m1 _ ?_
        rw [dmem_dinsert]
        exact Or.inl rfl
      · exact m2 f' hf'

/-! ## Resolver proofs: the class-name index -/

theorem class_name_map_aux (cs : List ClassMetadata)
    (m₀ : List (String × List String)) (n : String) :
    dlookup (cs.foldl
      (fun m cls =>
        match dlookup m cls.name with
        | none => dinsert m cls.name [cmId cls]
        | some ids => dinsert m cls.name (ids ++ [cmId cls])) m₀) n =
      match dlookup m₀ n with
      | some ids => some (ids ++ (cs.filter (fun c => c.name == n)).map cmId)
      | none =>
        if (cs.filter (fun c => c.name == n)).isEmpty then none
        else some ((cs.filter (fun c => c.name == n)).map cmId) := by
  induction cs generalizing m₀ with
  | nil =>
    cases hl : dlookup m₀ n <;> simp [List.foldl_nil, hl]
  | cons c cs ih =>
    simp only [List.foldl_cons]
    by_cases hcn : c.name = n
    · subst hcn
      cases hl : dlookup m₀ c.name with
      | none =>
        dsimp only
        rw [ih, dlookup_dinsert]
        simp [List.filter_cons]
      | some ids =>
        dsimp only
        rw [ih, dlookup_dinsert]
        simp [List.filter_cons]
    · have step_eq : ∀ m₁ : List (String × List String),
          dlookup (match dlookup m₀ c.name with
            | none => dinsert m₀ c.name [cmId c]
            | some ids => dinsert m₀ c.name (ids ++ [cmId c])) n =
            dlookup m₀ n := by
        intro _
        cases hl : dlookup m₀ c.name <;>
          · dsimp only
            rw [dlookup_dinsert, if_neg (fun hh : n = c.name => hcn hh.symm)]
      rw [ih, step_eq m₀]
      have hfil : (c :: cs).filter (fun c => c.name == n) =
          cs.filter (fun c => c.name == n) := by
        simp [List.filter_cons, hcn]
      rw [hfil]

theorem class_name_map_spec (classes : List ClassMetadata) (n : String) :
    dlookup (class_name_map classes) n =
      if (classes.filter (fun c => c.name == n)).isEmpty then none
      else some ((classes.filter (fun c => c.name == n)).map cmId) := by
  unfold class_name_map
  rw [class_name_map_aux]
  rfl

theorem class_name_map_mem {classes : List ClassMetadata} {n : String}
    {ids : List String} (h : dlookup (class_name_map classes) n = some ids)
    (x : String) :
    x ∈ ids ↔ ∃ c ∈ classes, c.name = n ∧ x = cmId c := by
  rw [class_name_map_spec] at h
  by_cases he : (classes.filter (fun c => c.name == n)).isEmpty
  · rw [if_pos he] at h; cases h
  · rw [if_neg he] at h
    obtain rfl : (classes.filter (fun c => c.name == n)).map cmId = ids :=
      Option.some.injEq .. ▸ h
    simp only [List.mem_map, List.mem_filter, beq_iff_eq]
    constructor
    · rintro ⟨c, ⟨hc, hn⟩, rfl⟩
      exact ⟨c, hc, hn, rfl⟩
    · rintro ⟨c, hc, hn, rfl⟩
      exact ⟨c, ⟨hc, hn⟩, rfl⟩

theorem class_name_map_none {classes : List ClassMetadata} {n : String}
    (h : dlookup (class_name_map classes) n = none) :
    ∀ c ∈ classes, c.name ≠ n := by
  rw [class_name_map_spec] at h
  by_cases he : (classes.filter (fun c => c.name == n)).isEmpty
  · intro c hc hn
    rw [List.isEmpty_iff] at he
    have : c ∈ classes.filter (fun c => c.name == n) := by
      rw [List.mem_filter]
      exact ⟨hc, by simp [hn]⟩
    rw [he] at this
    exact absurd this (List.not_mem_nil c)
  · rw [if_neg he] at h
    cases h

theorem cmap_in_dom {classes : List ClassMetadata} {g : Graph}
    (hpres : ∀ cls ∈ classes, dmem g (cmId cls) = true) :
    CmapInDom (class_name_map classes) g := by
  intro n ids hl x hx
  obtain ⟨c, hc, _, rfl⟩ := (class_name_map_mem hl x).mp hx
  exact hpres c hc

/-! ## Resolver proofs: what the edge passes add -/

/-- The `calls` targets one declaration resolves on a graph with the
given key set: the same-file candidates that exist. -/
def callTargets (g : Graph) (f : FunctionMetadata) : Finset String :=
  ((f.called_functions.filter fun n =>
      dmem g (f.file_path ++ ":" ++ n)).map
    (fun n => f.file_path ++ ":" ++ n)).toFinset

/-- The `uses` targets of one referenced type name: the same-file node
when it exists, else every same-named class from the index, else none. -/
def useTargetsRef (cmap : List (String × List String)) (g : Graph)
    (file n : String) : Finset String :=
  if dmem g (file ++ ":" ++ n) then {file ++ ":" ++ n}
  else
    match dlookup cmap n with
    | some ids => ids.toFinset
    | none => ∅

/-- The `uses` targets accumulated over a list of referenced type
names. -/
def useTargetsAux (cmap : List (String × List String)) (g : Graph)
    (file : String) (ns : List String) : Finset String :=
  ns.foldr (fun n acc => useTargetsRef cmap g file n ∪ acc) ∅

/-- The `uses` targets one declaration resolves. -/
def useTargets (cmap : List (String × List String)) (g : Graph)
    (f : FunctionMetadata) : Finset String :=
  useTargetsAux cmap g f.file_path f.used_classes

theorem callTargets_congr {g g' : Graph} (f : FunctionMetadata)
    (he : ∀ x, dmem g' x = dmem g x) : callTargets g' f = callTargets g f := by
  unfold callTargets
  rw [List.filter_congr (fun n _ => he (f.file_path ++ ":" ++ n))]

theorem useTargetsRef_congr {cmap : List (String × List String)} {g g' : Graph}
    (file n : String) (he : ∀ x, dmem g' x = dmem g x) :
    useTargetsRef cmap g' file n = useTargetsRef cmap g file n := by
  unfold useTargetsRef
  rw [he]

theorem useTargetsAux_congr {cmap : List (String × List String)} {g g' : Graph}
    (file : String) (ns : List String) (he : ∀ x, dmem g' x = dmem g x) :
    useTargetsAux cmap g' file ns = useTargetsAux cmap g file ns := by
  induction ns with
  | nil => rfl
  | cons n ns ih =>
    simp only [useTargetsAux, List.foldr_cons] at ih ⊢
    rw [ih, useTargetsRef_congr file n he]

theorem useTargets_congr {cmap : List (String × List String)} {g g' : Graph}
    (f : FunctionMetadata) (he : ∀ x, dmem g' x = dmem g x) :
    useTargets cmap g' f = useTargets cmap g f :=
  useTargetsAux_congr f.file_path f.used_classes he

theorem callsOf_procCalls (g : Graph) (fid file : String) (ns : List String)
    (hf : dmem g fid = true) (k : String) :
    callsOf (procCalls g fid file ns) k =
      callsOf g k ∪
        (if k = fid then
          ((ns.filter fun n => dmem g (file ++ ":" ++ n)).map
            (fun n => file ++ ":" ++ n)).toFinset
        else ∅) := by
  induction ns generalizing g with
  | nil =>
    by_cases hk : k = fid <;> simp [procCalls, hk]
  | cons n ns ih =>
    simp only [procCalls, List.foldl_cons] at ih ⊢
    by_cases hg : dmem g (file ++ ":" ++ n) = true
    · simp only [hg, if_true]
      have hf' : dmem (addCallEdge g fid (file ++ ":" ++ n)) fid = true := by
        rw [dmem_addCallEdge]; exact hf
      rw [ih _ hf',
        List.filter_congr
          (fun n' _ => dmem_addCallEdge g fid (file ++ ":" ++ n) (file ++ ":" ++ n')),
        callsOf_addCallEdge g fid (file ++ ":" ++ n) k hf]
      simp only [List.filter_cons, hg, if_true, List.map_cons, List.toFinset_cons]
      by_cases hk : k = fid
      · subst hk
        simp [Finset.insert_union, Finset.union_insert]
      · simp [hk]
    · simp only [hg, Bool.false_eq_true, if_false]
      rw [ih _ hf, List.filter_cons_of_neg (by simp [hg])]

theorem usesOf_procCalls (g : Graph) (fid file : String) (ns : List String)
    (k : String) : usesOf (procCalls g fid file ns) k = usesOf g k := by
  induction ns generalizing g with
  | nil => rfl
  | cons n ns ih =>
    simp only [procCalls, List.foldl_cons] at ih ⊢
    by_cases hg : dmem g (file ++ ":" ++ n) = true
    · simp only [hg, if_true]
      rw [ih, usesOf_addCallEdge]
    · simp only [hg, Bool.false_eq_true, if_false]
      exact ih g

theorem callsOf_fanout (g : Graph) (fid : String) (ids : List String)
    (k : String) :
    callsOf (ids.foldl (fun g cid => addUseEdge g fid cid) g) k =
      callsOf g k := by
  induction ids generalizing g with
  | nil => rfl
  | cons i ids ih =>
    simp only [List.foldl_cons]
    rw [ih, callsOf_addUseEdge]

theorem usesOf_fanout (g : Graph) (fid : String) (ids : List String)
    (hf : dmem g fid = true) (k : String) :
    usesOf (ids.foldl (fun g cid => addUseEdge g fid cid) g) k =
      usesOf g k ∪ (if k = fid then ids.toFinset else ∅) := by
  induction ids generalizing g with
  | nil =>
    by_cases hk : k = fid <;> simp [hk]
  | cons i ids ih =>
    simp only [List.foldl_cons, List.toFinset_cons]
    have hf' : dmem (addUseEdge g fid i) fid = true := by
      rw [dmem_addUseEdge]; exact hf
    rw [ih _ hf', usesOf_addUseEdge g fid i k hf]
    by_cases hk : k = fid
    · subst hk
      simp [Finset.insert_union, Finset.union_insert]
    · simp [hk]

theorem callsOf_procUses (cmap : List (String × List String)) (g : Graph)
    (fid file : String) (ns : List String) (k : String) :
    callsOf (procUses cmap g fid file ns) k = callsOf g k := by
  induction ns generalizing g with
  | nil => rfl
  | cons n ns ih =>
    simp only [procUses, List.foldl_cons] at ih ⊢
    by_cases hg : dmem g (file ++ ":" ++ n) = true
    · simp only [hg, if_true]
      rw [ih, callsOf_addUseEdge]
    · cases hl : dlookup cmap n with
      | none =>
        simp only [hg, hl, Bool.false_eq_true, if_false]
        exact ih g
      | some ids =>
        simp only [hg, hl, Bool.false_eq_true, if_false]
        rw [ih, callsOf_fanout]

theorem usesOf_procUses (cmap : List (String × List String)) (g : Graph)
    (fid file : String) (ns : List String) (hf : dmem g fid = true)
    (k : String) :
    usesOf (procUses cmap g fid file ns) k =
      usesOf g k ∪ (if k = fid then useTargetsAux cmap g file ns else ∅) := by
  induction ns generalizing g with
  | nil =>
    by_cases hk : k = fid <;> simp [procUses, useTargetsAux, hk]
  | cons n ns ih =>
    simp only [procUses, List.foldl_cons] at ih ⊢
    have haux : ∀ g' : Graph, (∀ x, dmem g' x = dmem g x) →
        useTargetsAux cmap g' file ns = useTargetsAux cmap g file ns :=
      fun g' he => useTargetsAux_congr file ns he
    by_cases hg : dmem g (file ++ ":" ++ n) = true
    · simp only [hg, if_true]
      have hf' : dmem (addUseEdge g fid (file ++ ":" ++ n)) fid = true := by
        rw [dmem_addUseEdge]; exact hf
      rw [ih _ hf', haux _ (fun x => dmem_addUseEdge g fid (file ++ ":" ++ n) x),
        usesOf_addUseEdge g fid (file ++ ":" ++ n) k hf]
      have href : useTargetsRef cmap g file n = {file ++ ":" ++ n} := by
        unfold useTargetsRef
        rw [if_pos hg]
      simp only [useTargetsAux, List.foldr_cons, href]
      by_cases hk : k = fid
      · subst hk
        simp [Finset.insert_union, Finset.union_insert, ← Finset.insert_eq]
      · simp [hk]
    · cases hl : dlookup cmap n with
      | none =>
        simp only [hg, hl, Bool.false_eq_true, if_false]
        have href : useTargetsRef cmap g file n = ∅ := by
          unfold useTargetsRef
          rw [if_neg (by simp [hg]), hl]
        rw [ih _ hf]
        simp only [useTargetsAux, List.foldr_cons, href, Finset.empty_union]
      | some ids =>
        simp only [hg, hl, Bool.false_eq_true, if_false]
        have hf' : dmem (ids.foldl (fun g cid => addUseEdge g fid cid) g) fid
            = true := by
          rw [dmem_fanout]; exact hf
        rw [ih _ hf', haux _ (fun x => dmem_fanout g fid ids x),
          usesOf_fanout g fid ids hf k]
        have href : useTargetsRef cmap g file n = ids.toFinset := by
          unfold useTargetsRef
          rw [if_neg (by simp [hg]), hl]
        simp only [useTargetsAux, List.foldr_cons, href]
        by_cases hk : k = fid
        · subst hk
          simp [Finset.union_assoc]
        · simp [hk]

theorem callsOf_procFuncEdges (cmap : List (String × List String)) (g : Graph)
    (f : FunctionMetadata) (hf : dmem g (fmId f) = true) (k : String) :
    callsOf (procFuncEdges cmap g f) k =
      callsOf g k ∪ (if k = fmId f then callTargets g f else ∅) := by
  unfold procFuncEdges
  rw [callsOf_procUses, callsOf_procCalls g (fmId f) f.file_path
    f.called_functions hf k]
  rfl

theorem usesOf_procFuncEdges (cmap : List (String × List String)) (g : Graph)
    (f : FunctionMetadata) (hf : dmem g (fmId f) = true) (k : String) :
    usesOf (procFuncEdges cmap g f) k =
      usesOf g k ∪ (if k = fmId f then useTargets cmap g f else ∅) := by
  unfold procFuncEdges
  have hf' : dmem (procCalls g (fmId f) f.file_path f.called_functions)
      (fmId f) = true := by
    rw [dmem_procCalls]; exact hf
  rw [usesOf_procUses cmap _ (fmId f) f.file_path f.used_classes hf' k,
    usesOf_procCalls,
    useTargetsAux_congr f.file_path f.used_classes
      (fun x => dmem_procCalls g (fmId f) f.file_path f.called_functions x)]
  rfl

/-! ## Resolver proofs: whole-pass characterization -/

/-- The declarations the edge passes process, in processing order: every
standalone function, then every method of every class. -/
def allDecls (functions : List FunctionMetadata) (classes : List ClassMetadata) :
    List FunctionMetadata :=
  functions ++ (classes.map ClassMetadata.methods).flatten

theorem mem_ite_empty {x : String} {c : Prop} [Decidable c] {s : Finset String} :
    x ∈ (if c then s else ∅) ↔ c ∧ x ∈ s := by
  by_cases h : c <;> simp [h]

theorem mem_callsOf_edge_fold (cmap : List (String × List String))
    (ds : List FunctionMetadata) (g : Graph)
    (hpres : ∀ d ∈ ds, dmem g (fmId d) = true) (k x : String) :
    x ∈ callsOf (ds.foldl (procFuncEdges cmap) g) k ↔
      x ∈ callsOf g k ∨ ∃ d ∈ ds, fmId d = k ∧ x ∈ callTargets g d := by
  induction ds generalizing g with
  | nil => simp
  | cons d ds ih =>
    simp only [List.foldl_cons]
    have hd := hpres d (List.mem_cons_self d ds)
    have hpres' : ∀ d' ∈ ds, dmem (procFuncEdges cmap g d) (fmId d') = true := by
      intro d' hd'
      rw [dmem_procFuncEdges]
      exact hpres d' (List.mem_cons_of_mem d hd')
    rw [ih _ hpres', callsOf_procFuncEdges cmap g d hd k]
    have htc : ∀ d' : FunctionMetadata,
        callTargets (procFuncEdges cmap g d) d' = callTargets g d' :=
      fun d' => callTargets_congr d' (fun y => dmem_procFuncEdges cmap g d y)
    constructor
    · rintro (hx | ⟨d', hd', hk, hx⟩)
      · rw [Finset.mem_union, mem_ite_empty] at hx
        rcases hx with hx | ⟨hk, hx⟩
        · exact Or.inl hx
        · exact Or.inr ⟨d, List.mem_cons_self d ds, hk.symm, hx⟩
      · rw [htc d'] at hx
        exact Or.inr ⟨d', List.mem_cons_of_mem d hd', hk, hx⟩
    · rintro (hx | ⟨d', hd', hk, hx⟩)
      · refine Or.inl ?_
        rw [Finset.mem_union]
        exact Or.inl hx
      · rcases List.mem_cons.mp hd' with rfl | hd'
        · refine Or.inl ?_
          rw [Finset.mem_union, mem_ite_empty]
          exact Or.inr ⟨hk.symm, hx⟩
        · refine Or.inr ⟨d', hd', hk, ?_⟩
          rw [htc d']
          exact hx

theorem mem_usesOf_edge_fold (cmap : List (String × List String))
    (ds : List FunctionMetadata) (g : Graph)
    (hpres : ∀ d ∈ ds, dmem g (fmId d) = true) (k x : String) :
    x ∈ usesOf (ds.foldl (procFuncEdges cmap) g) k ↔
      x ∈ usesOf g k ∨ ∃ d ∈ ds, fmId d = k ∧ x ∈ useTargets cmap g d := by
  induction ds generalizing g with
  | nil => simp
  | cons d ds ih =>
    simp only [List.foldl_cons]
    have hd := hpres d (List.mem_cons_self d ds)
    have hpres' : ∀ d' ∈ ds, dmem (procFuncEdges cmap g d) (fmId d') = true := by
      intro d' hd'
      rw [dmem_procFuncEdges]
      exact hpres d' (List.mem_cons_of_mem d hd')
    rw [ih _ hpres', usesOf_procFuncEdges cmap g d hd k]
    have htc : ∀ d' : FunctionMetadata,
        useTargets cmap (procFuncEdges cmap g d) d' = useTargets cmap g d' :=
      fun d' => useTargets_congr d' (fun y => dmem_procFuncEdges cmap g d y)
    constructor
    · rintro (hx | ⟨d', hd', hk, hx⟩)
      · rw [Finset.mem_union, mem_ite_empty] at hx
        rcases hx with hx | ⟨hk, hx⟩
        · exact Or.inl hx
        · exact Or.inr ⟨d, List.mem_cons_self d ds, hk.symm, hx⟩
      · rw [htc d'] at hx
        exact Or.inr ⟨d', List.mem_cons_of_mem d hd', hk, hx⟩
    · rintro (hx | ⟨d', hd', hk, hx⟩)
      · refine Or.inl ?_
        rw [Finset.mem_union]
        exact Or.inl hx
      · rcases List.mem_cons.mp hd' with rfl | hd'
        · refine Or.inl ?_
          rw [Finset.mem_union, mem_ite_empty]
          exact Or.inr ⟨hk.symm, hx⟩
        · refine Or.inr ⟨d', hd', hk, ?_⟩
          rw [htc d']
          exact hx

theorem methods_fold_eq_flatten (cmap : List (String × List String))
    (classes : List ClassMetadata) (g : Graph) :
    classes.foldl (fun g cls => cls.methods.foldl (procFuncEdges cmap) g) g =
      ((classes.map ClassMetadata.methods).flatten).foldl
        (procFuncEdges cmap) g := by
  induction classes generalizing g with
  | nil => rfl
  | cons c cs ih =>
    simp only [List.foldl_cons, List.map_cons, List.flatten_cons,
      List.foldl_append]
    exact ih _

/-- Decomposition of a successful resolution: the final graph is the
single edge fold over all declarations, starting from the fully
initialized graph; plus every fact about that initial graph the
characterizations need. -/
theorem extract_relationships_setup {functions : List FunctionMetadata}
    {classes : List ClassMetadata} {g : Graph}
    (h : extract_relationships functions classes = some g) :
    ∃ g₁ : Graph,
      g = (allDecls functions classes).foldl
        (procFuncEdges (class_name_map classes)) g₁ ∧
      EdgesEmpty g₁ ∧ ClosedG g₁ ∧
      (∀ d ∈ allDecls functions classes, dmem g₁ (fmId d) = true) ∧
      CmapInDom (class_name_map classes) g₁ ∧
      (∀ k, dmem g k = dmem g₁ k) := by
  unfold extract_relationships at h
  cases hi : initClassPass [] classes with
  | none => rw [hi] at h; cases h
  | some g₀ =>
    rw [hi] at h
    simp only [Option.some.injEq] at h
    obtain ⟨icMono, icCls, icMeth, icEdges, icClosed⟩ := initClassPass_props hi
    obtain ⟨ifMono, ifFuncs, ifEdges, ifClosed⟩ := initFuncPass_props g₀ functions
    refine ⟨initFuncPass g₀ functions, ?_, ?_, ?_, ?_, ?_, ?_⟩
    · rw [← h, methods_fold_eq_flatten]
      rw [← List.foldl_append]
      rfl
    · refine ifEdges (icEdges ?_)
      intro k
      exact ⟨rfl, rfl, rfl, rfl⟩
    · refine ifClosed (icClosed ?_)
      intro k
      refine ⟨?_, ?_, ?_, ?_, ?_⟩ <;> intro x hx <;>
        simp [callsOf, calledByOf, usesOf, usedByOf, containsOf, fieldOf,
          dlookup] at hx
    · intro d hd
      rcases List.mem_append.mp hd with hd | hd
      · exact ifFuncs d hd
      · simp only [List.mem_flatten, List.mem_map] at hd
        obtain ⟨ms, ⟨cls, hcls, rfl⟩, hm⟩ := hd
        exact ifMono _ (icMeth cls hcls d hm)
    · refine cmap_in_dom ?_
      intro cls hcls
      exact ifMono _ (icCls cls hcls)
    · intro k
      rw [← h, methods_fold_eq_flatten, ← List.foldl_append]
      exact dmem_edge_fold _ _ _ k

theorem mem_callTargets {g : Graph} {f : FunctionMetadata} {B : String} :
    B ∈ callTargets g f ↔
      ∃ n ∈ f.called_functions, B = f.file_path ++ ":" ++ n ∧
        dmem g B = true := by
  unfold callTargets
  simp only [List.mem_toFinset, List.mem_map, List.mem_filter]
  constructor
  · rintro ⟨n, ⟨hn, hdm⟩, rfl⟩
    exact ⟨n, hn, rfl, hdm⟩
  · rintro ⟨n, hn, rfl, hdm⟩
    exact ⟨n, ⟨hn, hdm⟩, rfl⟩

theorem mem_useTargetsAux {cmap : List (String × List String)} {g : Graph}
    {file : String} {ns : List String} {B : String} :
    B ∈ useTargetsAux cmap g file ns ↔
      ∃ n ∈ ns, B ∈ useTargetsRef cmap g file n := by
  induction ns with
  | nil => simp [useTargetsAux]
  | cons n ns ih =>
    simp only [useTargetsAux, List.foldr_cons, Finset.mem_union] at ih ⊢
    constructor
    · rintro (hx | hx)
      · exact ⟨n, List.mem_cons_self n ns, hx⟩
      · obtain ⟨n', hn', hx⟩ := ih.mp hx
        exact ⟨n', List.mem_cons_of_mem n hn', hx⟩
    · rintro ⟨n', hn', hx⟩
      rcases List.mem_cons.mp hn' with rfl | hn'
      · exact Or.inl hx
      · exact Or.inr (ih.mpr ⟨n', hn', hx⟩)

theorem mem_useTargetsRef {classes : List ClassMetadata} {g : Graph}
    {file n B : String} :
    B ∈ useTargetsRef (class_name_map classes) g file n ↔
      ((dmem g (file ++ ":" ++ n) = true ∧ B = file ++ ":" ++ n) ∨
       (dmem g (file ++ ":" ++ n) = false ∧
         ∃ c ∈ classes, c.name = n ∧ B = cmId c)) := by
  unfold useTargetsRef
  by_cases hdm : dmem g (file ++ ":" ++ n) = true
  · rw [if_pos hdm]
    simp [hdm, Finset.mem_singleton]
  · have hdm' : dmem g (file ++ ":" ++ n) = false := by
      cases hb : dmem g (file ++ ":" ++ n)
      · rfl
      · exact absurd hb hdm
    rw [if_neg hdm]
    cases hl : dlookup (class_name_map classes) n with
    | none =>
      simp only [Finset.not_mem_empty, false_iff]
      rintro (⟨hd, _⟩ | ⟨_, c, hc, hn, _⟩)
      · rw [hdm'] at hd; cases hd
      · exact class_name_map_none hl c hc hn
    | some ids =>
      rw [List.mem_toFinset, class_name_map_mem hl B]
      simp [hdm']

/-! ## Claim C4 -/

/-- C4 (confirmed): in every graph the Resolver produces, for every pair
of node keys `a`, `b`, the edge sets are mirrored: `b` is in the `calls`
set of `a` iff `a` is in the `called_by` set of `b`, and `b` is in the
`uses` set of `a` iff `a` is in the `used_by` set of `b`. -/
theorem resolver_mirror_invariant (functions : List FunctionMetadata)
    (classes : List ClassMetadata) (g : Graph)
    (h : extract_relationships functions classes = some g)
    (a b : String) (ra rb : RelEntry)
    (ha : dlookup g a = some ra) (hb : dlookup g b = some rb) :
    (b ∈ ra.calls ↔ a ∈ rb.called_by) ∧ (b ∈ ra.uses ↔ a ∈ rb.used_by) := by
  obtain ⟨g₁, hg, hE, hC, hpres, hcm, hdom⟩ := extract_relationships_setup h
  have hm : Mirror g := by
    rw [hg]
    exact Mirror_edge_fold (EdgesEmpty_mirror hE) hpres hcm
  have hda : dmem g a = true := by rw [dmem, ha]; rfl
  have hdb : dmem g b = true := by rw [dmem, hb]; rfl
  have hmain := hm a b hda hdb
  rwa [callsOf_eq ha, calledByOf_eq hb, usesOf_eq ha, usedByOf_eq hb] at hmain

/-- Witness for C4 at a concrete corpus: `f` calls `g` in `a.py`, and
uses class `B` of `b.py`. -/
theorem resolver_mirror_invariant_witness :
    (("a.py:g" : String) ∈ ({"a.py:g"} : Finset String) ↔
      ("a.py:f" : String) ∈ ({"a.py:f"} : Finset String)) ∧
    (("a.py:g" : String) ∈ ({"b.py:B"} : Finset String) ↔
      ("a.py:f" : String) ∈ (∅ : Finset String)) :=
  resolver_mirror_invariant
    [{ name := "f", folder_path := "", file_path := "a.py", script_type := ".py",
       docstring := some "", parameters := [], returns := "Any", line_number := 1,
       called_functions := ["g"], used_classes := ["B"] },
     { name := "g", folder_path := "", file_path := "a.py", script_type := ".py",
       docstring := some "", parameters := [], returns := "Any", line_number := 2,
       called_functions := [], used_classes := [] }]
    [{ name := "B", folder_path := "", file_path := "b.py", script_type := ".py",
       docstring := some "", methods := [] }]
    [("b.py:B", ⟨some ∅, ∅, ∅, ∅, {"a.py:f"}⟩),
     ("a.py:f", ⟨none, {"a.py:g"}, ∅, {"b.py:B"}, ∅⟩),
     ("a.py:g", ⟨none, ∅, {"a.py:f"}, ∅, ∅⟩)]
    (by decide) "a.py:f" "a.py:g"
    ⟨none, {"a.py:g"}, ∅, {"b.py:B"}, ∅⟩
    ⟨none, ∅, {"a.py:f"}, ∅, ∅⟩
    (by decide) (by decide)

/-! ## Claim C9 -/

/-- C9 (confirmed): every graph the Resolver produces is closed under its
own edges — every node key appearing in any `contains`, `calls`,
`called_by`, `uses` or `used_by` set of any node is itself a key of the
graph mapping. -/
theorem resolver_graph_closed (functions : List FunctionMetadata)
    (classes : List ClassMetadata) (g : Graph)
    (h : extract_relationships functions classes = some g)
    (a : String) (ra : RelEntry) (ha : dlookup g a = some ra) (x : String)
    (hx : x ∈ ra.calls ∨ x ∈ ra.called_by ∨ x ∈ ra.uses ∨ x ∈ ra.used_by ∨
      ∃ s, ra.contains = some s ∧ x ∈ s) :
    dmem g x = true := by
  obtain ⟨g₁, hg, hE, hC, hpres, hcm, hdom⟩ := extract_relationships_setup h
  have hcl : ClosedG g := by
    rw [hg]
    exact ClosedG_edge_fold hC hpres hcm
  obtain ⟨p1, p2, p3, p4, p5⟩ := hcl a
  rcases hx with hx | hx | hx | hx | ⟨s, hs, hx⟩
  · refine p1 x ?_
    rw [callsOf_eq ha]; exact hx
  · refine p2 x ?_
    rw [calledByOf_eq ha]; exact hx
  · refine p3 x ?_
    rw [usesOf_eq ha]; exact hx
  · refine p4 x ?_
    rw [usedByOf_eq ha]; exact hx
  · refine p5 x ?_
    rw [containsOf_eq ha, hs]
    exact hx

/-- Witness for C9 at the same concrete corpus. -/
theorem resolver_graph_closed_witness :
    dmem ([("b.py:B", ⟨some ∅, ∅, ∅, ∅, {"a.py:f"}⟩),
           ("a.py:f", ⟨none, {"a.py:g"}, ∅, {"b.py:B"}, ∅⟩),
           ("a.py:g", ⟨none, ∅, {"a.py:f"}, ∅, ∅⟩)] : Graph) "a.py:g" = true :=
  resolver_graph_closed
    [{ name := "f", folder_path := "", file_path := "a.py", script_type := ".py",
       docstring := some "", parameters := [], returns := "Any", line_number := 1,
       called_functions := ["g"], used_classes := ["B"] },
     { name := "g", folder_path := "", file_path := "a.py", script_type := ".py",
       docstring := some "", parameters := [], returns := "Any", line_number := 2,
       called_functions := [], used_classes := [] }]
    [{ name := "B", folder_path := "", file_path := "b.py", script_type := ".py",
       docstring := some "", methods := [] }]
    _ (by decide) "a.py:f" ⟨none, {"a.py:g"}, ∅, {"b.py:B"}, ∅⟩ (by decide)
    "a.py:g" (Or.inl (by decide))

/-! ## Claim C6 -/

/-- C6 (confirmed): a `calls` edge is added exactly for same-file
resolution — `B` is in the `calls` set of node `k` iff some processed
declaration with node key `k` references a call name `n` such that `B` is
that declaration's own file joined with `n` and `B` is a key of the
graph.  In particular a call to a same-named function declared only in a
different file never produces an edge, since the target key is always
prefixed by the caller's own file. -/
theorem resolver_calls_same_file_only (functions : List FunctionMetadata)
    (classes : List ClassMetadata) (g : Graph)
    (h : extract_relationships functions classes = some g)
    (k : String) (r : RelEntry) (hk : dlookup g k = some r) (B : String) :
    B ∈ r.calls ↔
      ∃ d ∈ allDecls functions classes, fmId d = k ∧
        ∃ n ∈ d.called_functions, B = d.file_path ++ ":" ++ n ∧
          dmem g B = true := by
  obtain ⟨g₁, hg, hE, hC, hpres, hcm, hdom⟩ := extract_relationships_setup h
  have hmem := mem_callsOf_edge_fold (class_name_map classes)
    (allDecls functions classes) g₁ hpres k B
  rw [← hg] at hmem
  rw [← callsOf_eq hk, hmem, (hE k).1]
  simp only [Finset.not_mem_empty, false_or]
  have hct : ∀ d : FunctionMetadata,
      (B ∈ callTargets g₁ d) = (∃ n ∈ d.called_functions,
        B = d.file_path ++ ":" ++ n ∧ dmem g B = true) := by
    intro d
    simp only [mem_callTargets, ← hdom]
  simp only [hct]

/-- Witness for C6 at the same concrete corpus. -/
theorem resolver_calls_same_file_only_witness :
    ("a.py:g" : String) ∈ ({"a.py:g"} : Finset String) ↔
      ∃ d ∈ allDecls
        [{ name := "f", folder_path := "", file_path := "a.py",
           script_type := ".py", docstring := some "", parameters := [],
           returns := "Any", line_number := 1,
           called_functions := ["g"], used_classes := ["B"] },
         { name := "g", folder_path := "", file_path := "a.py",
           script_type := ".py", docstring := some "", parameters := [],
           returns := "Any", line_number := 2,
           called_functions := [], used_classes := [] }]
        [{ name := "B", folder_path := "", file_path := "b.py",
           script_type := ".py", docstring := some "", methods := [] }],
        fmId d = "a.py:f" ∧
        ∃ n ∈ d.called_functions, "a.py:g" = d.file_path ++ ":" ++ n ∧
          dmem ([("b.py:B", ⟨some ∅, ∅, ∅, ∅, {"a.py:f"}⟩),
                 ("a.py:f", ⟨none, {"a.py:g"}, ∅, {"b.py:B"}, ∅⟩),
                 ("a.py:g", ⟨none, ∅, {"a.py:f"}, ∅, ∅⟩)] : Graph)
            "a.py:g" = true :=
  resolver_calls_same_file_only _ _ _ (by decide) "a.py:f"
    ⟨none, {"a.py:g"}, ∅, {"b.py:B"}, ∅⟩ (by decide) "a.py:g"

/-! ## Claim C5 -/

/-- C5 (confirmed): a `uses` edge is resolved per referenced type name
`n` as follows — `B` is in the `uses` set of node `k` iff some processed
declaration with key `k` references type name `n` and either the
declaration's own-file candidate key exists and `B` is exactly that key
(one edge), or no own-file candidate exists and `B` is the node key of
one of the classes named `n` anywhere in the corpus (an edge to every
such class); when neither case applies the reference contributes
nothing. -/
theorem resolver_uses_fanout (functions : List FunctionMetadata)
    (classes : List ClassMetadata) (g : Graph)
    (h : extract_relationships functions classes = some g)
    (k : String) (r : RelEntry) (hk : dlookup g k = some r) (B : String) :
    B ∈ r.uses ↔
      ∃ d ∈ allDecls functions classes, fmId d = k ∧
        ∃ n ∈ d.used_classes,
          ((dmem g (d.file_path ++ ":" ++ n) = true ∧
             B = d.file_path ++ ":" ++ n) ∨
           (dmem g (d.file_path ++ ":" ++ n) = false ∧
             ∃ c ∈ classes, c.name = n ∧ B = cmId c)) := by
  obtain ⟨g₁, hg, hE, hC, hpres, hcm, hdom⟩ := extract_relationships_setup h
  have hmem := mem_usesOf_edge_fold (class_name_map classes)
    (allDecls functions classes) g₁ hpres k B
  rw [← hg] at hmem
  rw [← usesOf_eq hk, hmem, (hE k).2.2.1]
  simp only [Finset.not_mem_empty, false_or]
  have hut : ∀ d : FunctionMetadata,
      (B ∈ useTargets (class_name_map classes) g₁ d) =
        (∃ n ∈ d.used_classes,
          ((dmem g (d.file_path ++ ":" ++ n) = true ∧
             B = d.file_path ++ ":" ++ n) ∨
           (dmem g (d.file_path ++ ":" ++ n) = false ∧
             ∃ c ∈ classes, c.name = n ∧ B = cmId c))) := by
    intro d
    simp only [useTargets, mem_useTargetsAux, mem_useTargetsRef, ← hdom]
  simp only [hut]

/-- Witness for C5 at the same concrete corpus: `f`'s reference to `B`
has no own-file candidate and fans out to class `b.py:B`. -/
theorem resolver_uses_fanout_witness :
    ("b.py:B" : String) ∈ ({"b.py:B"} : Finset String) ↔
      ∃ d ∈ allDecls
        [{ name := "f", folder_path := "", file_path := "a.py",
           script_type := ".py", docstring := some "", parameters := [],
           returns := "Any", line_number := 1,
           called_functions := ["g"], used_classes := ["B"] },
         { name := "g", folder_path := "", file_path := "a.py",
           script_type := ".py", docstring := some "", parameters := [],
           returns := "Any", line_number := 2,
           called_functions := [], used_classes := [] }]
        [{ name := "B", folder_path := "", file_path := "b.py",
           script_type := ".py", docstring := some "", methods := [] }],
        fmId d = "a.py:f" ∧
        ∃ n ∈ d.used_classes,
          ((dmem ([("b.py:B", ⟨some ∅, ∅, ∅, ∅, {"a.py:f"}⟩),
                   ("a.py:f", ⟨none, {"a.py:g"}, ∅, {"b.py:B"}, ∅⟩),
                   ("a.py:g", ⟨none, ∅, {"a.py:f"}, ∅, ∅⟩)] : Graph)
              (d.file_path ++ ":" ++ n) = true ∧
             "b.py:B" = d.file_path ++ ":" ++ n) ∨
           (dmem ([("b.py:B", ⟨some ∅, ∅, ∅, ∅, {"a.py:f"}⟩),
                   ("a.py:f", ⟨none, {"a.py:g"}, ∅, {"b.py:B"}, ∅⟩),
                   ("a.py:g", ⟨none, ∅, {"a.py:f"}, ∅, ∅⟩)] : Graph)
              (d.file_path ++ ":" ++ n) = false ∧
             ∃ c ∈ [{ name := "B", folder_path := "", file_path := "b.py",
                      script_type := ".py", docstring := some "",
                      methods := ([] : List FunctionMetadata) }],
               c.name = n ∧ "b.py:B" = cmId c)) :=
  resolver_uses_fanout _ _ _ (by decide) "a.py:f"
    ⟨none, {"a.py:g"}, ∅, {"b.py:B"}, ∅⟩ (by decide) "b.py:B"

/-! ## Claim C10 -/

/-- The C10 input file: one class `C` and one function `f` whose body is
the call expression `C()`, all in the same file. -/
def c10tree : Ast := .module
  [.classDef "C" [],
   .functionDef "f" [] none 3 [.exprStmt (.call (.nameRef "C") [])]]

/-- The metadata the extractor produces for `f` of `c10tree`: the call to
`C` is collected both as a called function and (being capitalized) as a
used class. -/
def c10f : FunctionMetadata :=
  { name := "f", folder_path := "", file_path := "a.py", script_type := ".py",
    docstring := some "", parameters := [], returns := "Any", line_number := 3,
    called_functions := ["C"], used_classes := ["C"] }

/-- The metadata the extractor produces for class `C` of `c10tree`. -/
def c10c : ClassMetadata :=
  { name := "C", folder_path := "", file_path := "a.py", script_type := ".py",
    docstring := some "", methods := [] }

set_option maxRecDepth 8192 in
unseal walk astCollect in
theorem c10tree_eval : process_file_ast "a.py" c10tree = ([c10f], [c10c]) := rfl

/-- C10 (confirmed): same-file call resolution is kind-agnostic — for the
file `c10tree`, in which function `f` contains a call expression
targeting name `C` and a class named `C` is declared in the same file,
the Resolver adds a `calls` edge from node `a.py:f` to the class node
`a.py:C`. -/
theorem call_edge_targets_class_node :
    ∃ g : Graph,
      extract_relationships (process_file_ast "a.py" c10tree).1
        (process_file_ast "a.py" c10tree).2 = some g ∧
      ∃ r : RelEntry, dlookup g "a.py:f" = some r ∧ "a.py:C" ∈ r.calls := by
  rw [c10tree_eval]
  exact ⟨[("a.py:C", ⟨some ∅, ∅, {"a.py:f"}, ∅, {"a.py:f"}⟩),
          ("a.py:f", ⟨none, {"a.py:C"}, ∅, {"a.py:C"}, ∅⟩)],
    by decide, ⟨none, {"a.py:C"}, ∅, {"a.py:C"}, ∅⟩, by decide, by decide⟩

end GraphViewer
